import Mathlib

/-!
Verification of the `ClassesMap` core of ts-java (src/lib/classes-map.ts).

Strings are modelled as `List Char` (a Java class name, a package expression,
a method signature, ...).  The JavaScript `RegExp` patterns produced by
`packageExpressionToRegExp` and used by `classNameOnly`,
`fixGenericNestedTypeName` and `inWhiteList` only ever have a handful of
shapes (anchored literal prefixes, `[\w$]+$` suffixes, a back-reference in
`fixGenericNestedTypeName`); each shape is embedded by a function computing
exactly the JS matching semantics of that shape.  JavaScript objects are
modelled as association lists in key-insertion order (`lookupD` is key
lookup, `setKey` is property assignment, keeping the position of an existing
key and appending a new key), mirroring the JS iteration-order guarantees.
`Immutable.Set`/`Immutable.Map` are modelled as lists with membership tests.
-/

set_option autoImplicit false

namespace TsJava

/-- Class names, package expressions, signatures: JS strings as char lists. -/
abbrev Name : Type := List Char

/-- Membership test on a list of names (`Immutable.Set.has` / `_.has`). -/
def memN (n : Name) : List Name → Bool
  | [] => false
  | x :: t => if x = n then true else memN n t

theorem memN_iff_mem (n : Name) (l : List Name) : memN n l = true ↔ n ∈ l := by
  induction l with
  | nil => simp [memN]
  | cons x t ih =>
    simp only [memN, List.mem_cons]
    by_cases h : x = n
    · subst h; simp
    · rw [if_neg h, ih]
      constructor
      · exact Or.inr
      · rintro (h' | h')
        · exact absurd h'.symm h
        · exact h'

/-- First-match association-list lookup: JS property read `obj[k]`. -/
def lookupD {α : Type} : List (Name × α) → Name → Option α
  | [], _ => none
  | (k, v) :: t, n => if k = n then some v else lookupD t n

/-- JS property write `obj[k] = v`: overwrite the first occurrence of the
key in place, or append the key at the end. -/
def setKey {α : Type} : List (Name × α) → Name → α → List (Name × α)
  | [], k, v => [(k, v)]
  | (k', v') :: t, k, v => if k' = k then (k', v) :: t else (k', v') :: setKey t k v

theorem lookupD_setKey {α : Type} (t : List (Name × α)) (k : Name) (v : α) (k' : Name) :
    lookupD (setKey t k v) k' = if k = k' then some v else lookupD t k' := by
  induction t with
  | nil => simp [setKey, lookupD]
  | cons p t ih =>
    obtain ⟨k0, v0⟩ := p
    by_cases h0 : k0 = k
    · subst h0
      by_cases h1 : k0 = k'
      · subst h1; simp [setKey, lookupD]
      · simp [setKey, lookupD, h1, Ne.symm h1]
    · by_cases h1 : k0 = k'
      · subst h1
        simp [setKey, lookupD, h0, Ne.symm h0]
      · simp [setKey, lookupD, h0, h1, ih]

theorem lookupD_eq_none_of_not_mem {α : Type} (t : List (Name × α)) (k : Name)
    (h : k ∉ t.map Prod.fst) : lookupD t k = none := by
  induction t with
  | nil => rfl
  | cons p t ih =>
    obtain ⟨k0, v0⟩ := p
    simp only [List.map_cons, List.mem_cons] at h
    push_neg at h
    simp [lookupD, Ne.symm h.1, ih h.2]

theorem lookupD_mem {α : Type} (t : List (Name × α)) (k : Name) (v : α)
    (h : lookupD t k = some v) : (k, v) ∈ t := by
  induction t with
  | nil => simp [lookupD] at h
  | cons p t ih =>
    obtain ⟨k0, v0⟩ := p
    by_cases h0 : k0 = k
    · subst h0
      simp [lookupD] at h
      subst h
      exact List.mem_cons_self _ _
    · rw [lookupD, if_neg h0] at h
      exact List.mem_cons_of_mem _ (ih h)

/-- `\w` of JS regexps: ASCII letters, digits and underscore. -/
def isWordChar (c : Char) : Bool := c.isAlpha || c.isDigit || c = '_'

/-- The character class `[\w\$]` used by the single-level package wildcard. -/
def isWordOrDollar (c : Char) : Bool := isWordChar c || c = '$'

/-- The character class `[\w\.]`: the alphabet of Java package names, on
which the compiled package regexes are pure literal matchers. -/
def isWordOrDot (c : Char) : Bool := isWordChar c || c = '.'

/-- `s.endsWith suffix` on char lists. -/
def endsWithL (s suffix : Name) : Bool := suffix.reverse.isPrefixOf s.reverse

/-- `s.slice(0, -n)`: drop the last `n` characters. -/
def dropRightL (s : Name) (n : Nat) : Name := (s.reverse.drop n).reverse

/-!
### packageExpressionToRegExp (classes-map.ts lines 221-232) and inWhiteList

The regexes built by `packageExpressionToRegExp` have exactly three shapes
(`^` is always prepended, and only the dots of the expression are escaped —
line 230):

* `^body[\w$]+$`  for an expression ending in `.*`  (body keeps the dot);
* `^body`         for an expression ending in `.**` (body keeps the dot);
* `^body`         for any other expression (note: no trailing `$` anchor).

Because only dots are escaped, the expression's other characters are carried
verbatim into the regex: a `$` — legal in nested-class names — keeps its JS
meaning of an end-of-input anchor.  The body is therefore modelled as a list
of `RegexAtom`s: a literal character or an end anchor.  The remaining regex
metacharacters cannot occur in Java class or package names, so the theorems
below restrict their scope to the word/dot/`$` alphabet, where this atom
semantics is exact.  The constructor (lines 123-129) additionally builds
fully anchored and fully escaped (`.` and `$`, line 126) `^className$`
regexes for seed classes — an exact string match.
-/

inductive RegexAtom : Type where
  /-- A character matched literally (word characters, escaped dots). -/
  | lit (c : Char) : RegexAtom
  /-- An unescaped `$`: matches only at the end of the input. -/
  | endAnchor : RegexAtom
deriving DecidableEq

/-- Compile the dot-escaped expression text into atoms: an unescaped `$`
is an end anchor, every other character a literal. -/
def compileChars (l : List Char) : List RegexAtom :=
  l.map fun c => if c = '$' then RegexAtom.endAnchor else RegexAtom.lit c

/-- `String.match` against `^<atoms>`: anchored at the start, a literal
consumes one character, an end anchor requires the input to be exhausted,
and input remaining after the atoms is free (no trailing anchor). -/
def matchAtoms : List RegexAtom → List Char → Bool
  | [], _ => true
  | .lit c :: ts, x :: xs => (c = x) && matchAtoms ts xs
  | .lit _ :: _, [] => false
  | .endAnchor :: ts, [] => matchAtoms ts []
  | .endAnchor :: _, _ :: _ => false

/-- `String.match` against `^<atoms>[\w$]+$` (the single-level-wildcard
shape): after the atoms, one or more word-or-`$` characters must consume
the entire remaining input.  An end anchor among the atoms kills the match:
the mandatory `[\w$]+` can never follow the end of the input. -/
def matchSeg : List RegexAtom → List Char → Bool
  | [], rest => !rest.isEmpty && rest.all isWordOrDollar
  | .lit c :: ts, x :: xs => (c = x) && matchSeg ts xs
  | .lit _ :: _, [] => false
  | .endAnchor :: _, _ => false

inductive CompiledPattern : Type where
  /-- `^body[\w$]+$`: the body, then one or more word-or-`$` chars to the end. -/
  | prefixSeg (p : List RegexAtom) : CompiledPattern
  /-- `^body`: the body matched at the start, the rest of the input free. -/
  | prefixPat (p : List RegexAtom) : CompiledPattern
  /-- `^s$` with `.` and `$` escaped: exactly the string `s` (seed-class
  patterns from the constructor, line 126). -/
  | exact (s : Name) : CompiledPattern
deriving DecidableEq

def patternMatches : CompiledPattern → Name → Bool
  | .prefixSeg p, s => matchSeg p s
  | .prefixPat p, s => matchAtoms p s
  | .exact p, s => p = s

/-- `packageExpressionToRegExp` (lines 221-232): an expression ending in `.*`
drops the `*` and appends `[\w$]+$`; an expression ending in `.**` drops the
`**`; any other expression is used as-is; `^` is prepended and only dots are
escaped. -/
def packageExpressionToRegExp (expr : Name) : CompiledPattern :=
  if endsWithL expr ".*".data then .prefixSeg (compileChars (dropRightL expr 1))
  else if endsWithL expr ".**".data then .prefixPat (compileChars (dropRightL expr 2))
  else .prefixPat (compileChars expr)

/-- The anonymous-class test `/\$\d+$/` of `inWhiteList` (line 730): the name
ends in `$` followed by one or more digits. -/
def isAnonClass (className : Name) : Bool :=
  let r := className.reverse
  let ds := r.takeWhile Char.isDigit
  !ds.isEmpty && (r.drop ds.length).head? = some '$'

/-- `inWhiteList` (lines 727-737): some compiled pattern matches and the name
is not an anonymous class. -/
def inWhiteList (includedPatterns : List CompiledPattern) (className : Name) : Bool :=
  includedPatterns.any (fun p => patternMatches p className) && !isAnonClass className

example : patternMatches (packageExpressionToRegExp "java.util.*".data)
    "java.util.AbstractMap$SimpleEntry".data = true := by decide
example : patternMatches (packageExpressionToRegExp "java.util.*".data)
    "java.util.stream.Stream".data = false := by decide
example : patternMatches (packageExpressionToRegExp "java.util.**".data)
    "java.util.stream.Stream".data = true := by decide
example : patternMatches (packageExpressionToRegExp "java.lang.Object".data)
    "java.lang.Objects".data = true := by decide

theorem endsWithL_append (p s : Name) : endsWithL (p ++ s) s = true := by
  rw [endsWithL, List.reverse_append, List.isPrefixOf_iff_prefix]
  exact List.prefix_append _ _

theorem dropRightL_append_one (p : Name) (c : Char) : dropRightL (p ++ [c]) 1 = p := by
  simp [dropRightL, List.reverse_append]

theorem dropRightL_append_two (p : Name) (c1 c2 : Char) :
    dropRightL (p ++ [c1, c2]) 2 = p := by
  simp [dropRightL, List.reverse_append]

theorem not_endsWithL_dotStar_of_dotStarStar (pkg : Name) :
    endsWithL (pkg ++ ".**".data) ".*".data = false := by
  rw [endsWithL, List.reverse_append]
  rfl

theorem isPrefixOf_append_self (l t : Name) : l.isPrefixOf (l ++ t) = true := by
  rw [List.isPrefixOf_iff_prefix]; exact List.prefix_append _ _

/-- The compiled form of an expression ending in `.*`. -/
theorem packageExpressionToRegExp_dotStar (pkg : Name) :
    packageExpressionToRegExp (pkg ++ ".*".data) =
      .prefixSeg (compileChars (pkg ++ ['.'])) := by
  have h1 : endsWithL (pkg ++ ".*".data) ".*".data = true := endsWithL_append pkg _
  have h2 : pkg ++ ".*".data = (pkg ++ ['.']) ++ ['*'] := by simp
  rw [packageExpressionToRegExp, if_pos h1, h2, dropRightL_append_one]

/-- The compiled form of an expression ending in `.**`. -/
theorem packageExpressionToRegExp_dotStarStar (pkg : Name) :
    packageExpressionToRegExp (pkg ++ ".**".data) =
      .prefixPat (compileChars (pkg ++ ['.'])) := by
  have h1 : endsWithL (pkg ++ ".**".data) ".*".data = false :=
    not_endsWithL_dotStar_of_dotStarStar pkg
  have h2 : endsWithL (pkg ++ ".**".data) ".**".data = true := endsWithL_append pkg _
  have h3 : pkg ++ ".**".data = (pkg ++ ['.']) ++ ['*', '*'] := by simp
  rw [packageExpressionToRegExp, if_neg (by simp [h1]), if_pos h2, h3,
    dropRightL_append_two]

theorem isWordOrDot_ne_dollar (c : Char) (h : isWordOrDot c = true) : c ≠ '$' := by
  intro he
  subst he
  exact absurd h (by decide)

/-- On the package-name alphabet (word characters and dots) the compiled
body is a pure literal matcher. -/
theorem compileChars_all_lit (p : Name) (hp : p.all isWordOrDot = true) :
    compileChars p = p.map RegexAtom.lit := by
  induction p with
  | nil => rfl
  | cons c t ih =>
    rw [List.all_cons, Bool.and_eq_true] at hp
    simp only [compileChars, List.map_cons] at ih ⊢
    rw [if_neg (isWordOrDot_ne_dollar c hp.1), ih hp.2]

theorem matchAtoms_lits (p : Name) :
    ∀ name : Name, matchAtoms (p.map RegexAtom.lit) name = p.isPrefixOf name := by
  induction p with
  | nil => intro name; cases name <;> rfl
  | cons c t ih =>
    intro name
    cases name with
    | nil => rfl
    | cons x xs =>
      simp only [List.map_cons, matchAtoms, List.isPrefixOf]
      by_cases h : c = x
      · subst h
        simp [ih]
      · simp [h]

theorem matchSeg_lits (p : Name) :
    ∀ rest : Name, matchSeg (p.map RegexAtom.lit) (p ++ rest) =
      (!rest.isEmpty && rest.all isWordOrDollar) := by
  induction p with
  | nil => intro rest; rfl
  | cons c t ih =>
    intro rest
    have h1 : (c :: t) ++ rest = c :: (t ++ rest) := rfl
    rw [List.map_cons, h1]
    simp only [matchSeg]
    rw [ih rest]
    simp

theorem matchAtoms_lit_needs_input (l2 l3 : List RegexAtom) (c : Char) :
    matchAtoms (l2 ++ .lit c :: l3) [] = false := by
  induction l2 with
  | nil => rfl
  | cons a t ih =>
    cases a with
    | lit c0 => rfl
    | endAnchor =>
      rw [List.cons_append]
      exact ih

/-- A body containing an end anchor that is later followed by a literal can
match no input at all: the anchor demands the end of the input, after which
the literal has nothing to consume. -/
theorem matchAtoms_anchor_lit_false (l2 l3 : List RegexAtom) (c : Char) :
    ∀ (l1 : List RegexAtom) (name : Name),
      matchAtoms (l1 ++ .endAnchor :: (l2 ++ .lit c :: l3)) name = false := by
  intro l1
  induction l1 with
  | nil =>
    intro name
    cases name with
    | nil =>
      rw [List.nil_append]
      exact matchAtoms_lit_needs_input l2 l3 c
    | cons x xs => rfl
  | cons a t ih =>
    intro name
    cases a with
    | lit c0 =>
      cases name with
      | nil => rfl
      | cons x xs =>
        rw [List.cons_append]
        simp only [matchAtoms, ih xs, Bool.and_false]
    | endAnchor =>
      cases name with
      | nil =>
        rw [List.cons_append]
        exact ih []
      | cons x xs => rfl

/-- C2 (amended): over the alphabet of real package and class names, an
expression ending in `.*` compiles to a matcher accepting exactly one
further path segment of word-or-`$` characters (nested classes of the named
package accepted, classes of sub-packages rejected); an expression ending in
`.**` accepts any further nesting.  A bare fully-qualified class name gets
no trailing `$` anchor and only its dots escaped, so when it contains no `$`
it compiles to a start-anchored prefix matcher, accepting the class name
itself and every extension of it; and when it does contain a `$` followed by
more characters (a nested-class name), the unescaped `$` keeps its
end-anchor meaning and the compiled pattern matches nothing at all, not even
the class name itself. -/
theorem packageExpression_matching :
    (∀ pkg seg : Name, pkg.all isWordOrDot = true → seg ≠ [] →
      seg.all isWordOrDollar = true →
      patternMatches (packageExpressionToRegExp (pkg ++ ".*".data))
        (pkg ++ '.' :: seg) = true) ∧
    (∀ pkg s1 s2 : Name, pkg.all isWordOrDot = true →
      patternMatches (packageExpressionToRegExp (pkg ++ ".*".data))
        (pkg ++ '.' :: (s1 ++ '.' :: s2)) = false) ∧
    (∀ pkg rest : Name, pkg.all isWordOrDot = true →
      patternMatches (packageExpressionToRegExp (pkg ++ ".**".data))
        (pkg ++ '.' :: rest) = true) ∧
    (∀ expr : Name, expr.all isWordOrDot = true →
      endsWithL expr ".*".data = false → endsWithL expr ".**".data = false →
      ∀ name : Name,
        patternMatches (packageExpressionToRegExp expr) name = expr.isPrefixOf name) ∧
    (∀ (a b1 b2 : Name) (c : Char), c ≠ '$' →
      endsWithL (a ++ '$' :: (b1 ++ c :: b2)) ".*".data = false →
      endsWithL (a ++ '$' :: (b1 ++ c :: b2)) ".**".data = false →
      ∀ name : Name,
        patternMatches (packageExpressionToRegExp (a ++ '$' :: (b1 ++ c :: b2)))
          name = false) := by
  have hdotall : ∀ pkg : Name, pkg.all isWordOrDot = true →
      (pkg ++ ['.']).all isWordOrDot = true := by
    intro pkg hp
    rw [List.all_append, hp]
    decide
  refine ⟨?_, ?_, ?_, ?_, ?_⟩
  · intro pkg seg hpkg hne hall
    rw [packageExpressionToRegExp_dotStar]
    have hs : pkg ++ '.' :: seg = (pkg ++ ['.']) ++ seg := by simp
    simp only [patternMatches, hs]
    rw [compileChars_all_lit _ (hdotall pkg hpkg), matchSeg_lits]
    cases seg with
    | nil => exact absurd rfl hne
    | cons c t => simp_all
  · intro pkg s1 s2 hpkg
    rw [packageExpressionToRegExp_dotStar]
    have hs : pkg ++ '.' :: (s1 ++ '.' :: s2) = (pkg ++ ['.']) ++ (s1 ++ '.' :: s2) := by
      simp
    simp only [patternMatches, hs]
    rw [compileChars_all_lit _ (hdotall pkg hpkg), matchSeg_lits]
    have hall : (s1 ++ '.' :: s2).all isWordOrDollar = false := by
      rw [List.all_eq_false]
      exact ⟨'.', by simp, by decide⟩
    simp [hall]
  · intro pkg rest hpkg
    rw [packageExpressionToRegExp_dotStarStar]
    have hs : pkg ++ '.' :: rest = (pkg ++ ['.']) ++ rest := by simp
    simp only [patternMatches, hs]
    rw [compileChars_all_lit _ (hdotall pkg hpkg), matchAtoms_lits]
    exact isPrefixOf_append_self _ _
  · intro expr hdot h1 h2 name
    rw [packageExpressionToRegExp, if_neg (by simp [h1]), if_neg (by simp [h2])]
    simp only [patternMatches]
    rw [compileChars_all_lit expr hdot, matchAtoms_lits]
  · intro a b1 b2 c hc h1 h2 name
    rw [packageExpressionToRegExp, if_neg (by simp [h1]), if_neg (by simp [h2])]
    simp only [patternMatches]
    have hsplit : compileChars (a ++ '$' :: (b1 ++ c :: b2)) =
        compileChars a ++
          .endAnchor :: (compileChars b1 ++ .lit c :: compileChars b2) := by
      simp [compileChars, hc]
    rw [hsplit]
    exact matchAtoms_anchor_lit_false (compileChars b1) (compileChars b2) c
      (compileChars a) name

/-- Witness instantiating `packageExpression_matching` at the spec's
examples, including the nested-class bare name whose compiled pattern
matches nothing, not even itself. -/
theorem packageExpression_matching_witness :
    patternMatches (packageExpressionToRegExp ("java.util".data ++ ".*".data))
      ("java.util".data ++ '.' :: "AbstractMap$SimpleEntry".data) = true ∧
    patternMatches (packageExpressionToRegExp ("java.util".data ++ ".*".data))
      ("java.util".data ++ '.' :: ("stream".data ++ '.' :: "Stream".data)) = false ∧
    patternMatches (packageExpressionToRegExp "java.lang.Object".data)
      "java.lang.Object".data = true ∧
    patternMatches (packageExpressionToRegExp "java.util.AbstractMap$SimpleEntry".data)
      "java.util.AbstractMap$SimpleEntry".data = false :=
  ⟨packageExpression_matching.1 "java.util".data "AbstractMap$SimpleEntry".data
      (by decide) (by decide) (by decide),
   packageExpression_matching.2.1 "java.util".data "stream".data "Stream".data
      (by decide),
   (packageExpression_matching.2.2.2.1 "java.lang.Object".data (by decide) (by decide)
      (by decide) "java.lang.Object".data).trans (by decide),
   packageExpression_matching.2.2.2.2 "java.util.AbstractMap".data [] "impleEntry".data
      'S' (by decide) (by decide) (by decide)
      "java.util.AbstractMap$SimpleEntry".data⟩

/-- C2 counterexample: the pattern compiled from the bare class-name expression
java.lang.Object also accepts the distinct class name java.lang.Objects, so a
bare fully-qualified class name does not match only itself. -/
theorem packageExpression_bare_name_not_exact :
    patternMatches (packageExpressionToRegExp "java.lang.Object".data)
      "java.lang.Objects".data = true ∧
    "java.lang.Objects".data ≠ "java.lang.Object".data ∧
    inWhiteList [packageExpressionToRegExp "java.lang.Object".data]
      "java.lang.Objects".data = true := by
  refine ⟨by decide, by decide, by decide⟩

/-!
### The ClassesMap constructor's seed patterns (lines 117-129) — claim C10

`requiredCoreClasses` (lines 28-31) is merged with `options.classes`; each
seed class not already accepted by the compiled package patterns gets an
exact `^className$` pattern added (line 126), checking against the pattern
set as it grows.
-/

def requiredCoreClasses : List Name :=
  ["java.lang.Object".data, "java.lang.String".data]

/-- One iteration of the seeds loop (lines 124-129). -/
def addSeedPattern (patterns : List CompiledPattern) (className : Name) :
    List CompiledPattern :=
  if inWhiteList patterns className then patterns else patterns ++ [.exact className]

/-- The pattern set built by the `ClassesMap` constructor: the compiled
package expressions (line 117), then the seed loop over
`requiredCoreClasses` merged with `options.classes` (lines 123-129). -/
def constructorPatterns (packages classes : List Name) : List CompiledPattern :=
  (requiredCoreClasses ++ classes).foldl addSeedPattern
    (packages.map packageExpressionToRegExp)

theorem addSeedPattern_extends (ps : List CompiledPattern) (c : Name) :
    ∃ ts, addSeedPattern ps c = ps ++ ts := by
  rw [addSeedPattern]
  by_cases h : inWhiteList ps c = true
  · exact ⟨[], by simp [h]⟩
  · exact ⟨[.exact c], by simp [h]⟩

theorem foldl_addSeedPattern_extends (l : List Name) :
    ∀ ps : List CompiledPattern, ∃ ts, l.foldl addSeedPattern ps = ps ++ ts := by
  induction l with
  | nil => exact fun ps => ⟨[], by simp⟩
  | cons c l ih =>
    intro ps
    obtain ⟨t0, h0⟩ := addSeedPattern_extends ps c
    obtain ⟨ts, hts⟩ := ih (addSeedPattern ps c)
    exact ⟨t0 ++ ts, by rw [List.foldl_cons, hts, h0, List.append_assoc]⟩

theorem inWhiteList_append_mono (ps ts : List CompiledPattern) (name : Name)
    (h : inWhiteList ps name = true) : inWhiteList (ps ++ ts) name = true := by
  simp only [inWhiteList, List.any_append, Bool.and_eq_true, Bool.or_eq_true] at *
  exact ⟨Or.inl h.1, h.2⟩

theorem inWhiteList_addSeedPattern_self (ps : List CompiledPattern) (c : Name)
    (hna : isAnonClass c = false) : inWhiteList (addSeedPattern ps c) c = true := by
  rw [addSeedPattern]
  by_cases h : inWhiteList ps c = true
  · simp [h]
  · simp only [h, if_false, Bool.false_eq_true, if_neg]
    simp [inWhiteList, patternMatches, hna]

theorem inWhiteList_foldl_seed (l : List Name) :
    ∀ ps : List CompiledPattern, ∀ c ∈ l, isAnonClass c = false →
      inWhiteList (l.foldl addSeedPattern ps) c = true := by
  induction l with
  | nil => intro ps c hc; exact absurd hc (List.not_mem_nil c)
  | cons x l ih =>
    intro ps c hc hna
    rw [List.foldl_cons]
    rcases List.mem_cons.mp hc with h | h
    · subst h
      obtain ⟨ts, hts⟩ := foldl_addSeedPattern_extends l (addSeedPattern ps c)
      rw [hts]
      exact inWhiteList_append_mono _ _ _ (inWhiteList_addSeedPattern_self ps c hna)
    · exact ih (addSeedPattern ps x) c h hna

/-- C10: for every configuration (any packages and classes lists), after the
constructor has compiled its pattern set, the whitelist admits the required
core classes java.lang.Object and java.lang.String, because every seed class
not already matched got its own exact-match pattern. -/
theorem requiredCoreClasses_always_whitelisted :
    ∀ packages classes : List Name,
      inWhiteList (constructorPatterns packages classes) "java.lang.Object".data = true ∧
      inWhiteList (constructorPatterns packages classes) "java.lang.String".data = true := by
  intro packages classes
  constructor
  · exact inWhiteList_foldl_seed _ _ _ (by simp [requiredCoreClasses]) (by decide)
  · exact inWhiteList_foldl_seed _ _ _ (by simp [requiredCoreClasses]) (by decide)

/-!
### Context-sensitive primitive translation (lines 316-359) — claim C7
-/

inductive ParamContext : Type where
  | eInput : ParamContext
  | eReturn : ParamContext
deriving DecidableEq

/-- The `javaTypeToTypescriptType` dictionary of
`mapJavaPrimitivesToTypescript` (lines 341-352). -/
def javaTypeToTypescriptType (context : ParamContext) : List (Name × Name) :=
  [("void".data, "void".data),
   ("java.lang.Boolean".data, if context = .eInput then "boolean_t".data else "boolean".data),
   ("java.lang.Double".data,  if context = .eInput then "double_t".data  else "number".data),
   ("java.lang.Float".data,   if context = .eInput then "float_t".data   else "number".data),
   ("java.lang.Integer".data, if context = .eInput then "integer_t".data else "number".data),
   ("java.lang.Long".data,    if context = .eInput then "long_t".data    else "longValue_t".data),
   ("java.lang.Number".data,  if context = .eInput then "number_t".data  else "number".data),
   ("java.lang.Object".data,  if context = .eInput then "object_t".data  else "object_t".data),
   ("java.lang.Short".data,   if context = .eInput then "short_t".data   else "number".data),
   ("java.lang.String".data,  if context = .eInput then "string_t".data  else "string".data)]

/-- `mapJavaPrimitivesToTypescript` (lines 318-359): translate via the table
when the type is a key of it, otherwise return the type unchanged. -/
def mapJavaPrimitivesToTypescript (typeName : Name) (context : ParamContext) : Name :=
  (lookupD (javaTypeToTypescriptType context) typeName).getD typeName

/-- C7: java.lang.Integer translates to the permissive union alias integer_t
in input-parameter context and to plain number in return context, and
java.lang.Long is special-cased in both contexts: long_t on input and the
structured longValue_t on return. -/
theorem mapJavaPrimitives_context_sensitive :
    mapJavaPrimitivesToTypescript "java.lang.Integer".data .eInput = "integer_t".data ∧
    mapJavaPrimitivesToTypescript "java.lang.Integer".data .eReturn = "number".data ∧
    mapJavaPrimitivesToTypescript "java.lang.Long".data .eInput = "long_t".data ∧
    mapJavaPrimitivesToTypescript "java.lang.Long".data .eReturn = "longValue_t".data :=
  ⟨by decide, by decide, by decide, by decide⟩

/-!
### classNameOnly / isExcludedClass (lines 144-198) — claim C9

`classNameOnly` strips a generic suffix (regex `^(.*)<(.*)>$`, greedy first
group: the last `<` of a name ending in `>`), applies
`fixGenericNestedTypeName` (regex `^([\w\.]+)\.\1\$(.+)$` with a greedy
back-referenced first group: the longest word-or-dot prefix `p` such that the
name is `p.p$rest`), and then requires the resulting name to have been
observed during scanning.  `isExcludedClass` strips the generic suffix only.
-/

/-- The match `^(.*)<(.*)>$` of lines 156-158 and 183-186: if the string ends
in `>` and contains `<`, return the (greedy) first group, the part before the
last `<`; otherwise return the string unchanged. -/
def stripGeneric (s : Name) : Name :=
  match s.reverse with
  | '>' :: t =>
    if '<' ∈ t then ((t.dropWhile (fun c => c ≠ '<')).drop 1).reverse else s
  | _ => s

/-- One candidate split of the back-reference regex `^([\w\.]+)\.\1\$(.+)$`
of `fixGenericNestedTypeName` (line 145): with `p` the length-`k` prefix,
test whether the string is `p ++ . ++ p ++ $ ++ rest` with `rest` nonempty,
and if so return the replacement `p ++ $ ++ rest` (line 147). -/
def fixSplitAt (s : Name) (k : Nat) : Option Name :=
  let p := s.take k
  if p.all isWordOrDot then
    match s.drop k with
    | '.' :: r2 =>
      if p.isPrefixOf r2 then
        match r2.drop p.length with
        | '$' :: rest => if rest ≠ [] then some (p ++ '$' :: rest) else none
        | _ => none
      else none
    | _ => none
  else none

/-- Greedy back-reference search: try the longest first group first. -/
def fixSearch (s : Name) : Nat → Option Name
  | 0 => none
  | k + 1 =>
    match fixSplitAt s (k + 1) with
    | some r => some r
    | none => fixSearch s k

/-- `fixGenericNestedTypeName` (lines 144-150): if the name looks like a
nested class name with the outer class redundantly specified, remove the
redundant outer class name. -/
def fixGenericNestedTypeName (className : Name) : Name :=
  match fixSearch className className.length with
  | some r => r
  | none => className

example : fixGenericNestedTypeName "a.a$b".data = "a$b".data := by decide
example : fixGenericNestedTypeName "java.util.List".data = "java.util.List".data := by
  decide
example : stripGeneric "java.util.List<java.lang.String>".data = "java.util.List".data := by
  decide

/-- The scan-state fields of `ClassesMap` consulted by the query functions:
`allClasses`, `allExcludedClasses`, `shortToLongNameMap`, `unhandledTypes`. -/
structure MapState : Type where
  allClasses : List Name
  allExcludedClasses : List Name
  shortToLongNameMap : List (Name × Option Name)
  unhandledTypes : List Name
deriving DecidableEq

/-- `classNameOnly` (lines 155-169); a thrown `Error` is modelled as
`.error` carrying the name the message identifies (the original input). -/
def classNameOnly (st : MapState) (possiblyGenericClassName : Name) : Except Name Name :=
  let className := stripGeneric possiblyGenericClassName
  let className2 := fixGenericNestedTypeName className
  if memN className2 st.allClasses || memN className2 st.allExcludedClasses then
    .ok className2
  else
    .error possiblyGenericClassName

/-- `isExcludedClass` (lines 182-198); a thrown `Error` is modelled as
`.error` carrying the name the message identifies (the stripped name). -/
def isExcludedClass (st : MapState) (className : Name) : Except Name Bool :=
  let cn := stripGeneric className
  if memN cn st.allExcludedClasses then .ok true
  else if memN cn st.allClasses then .ok false
  else .error cn

/-- The concrete scan state of the C9 counterexample: the (legal) class name
a.a$b — package a, outer class a, nested class b — was observed in scope. -/
def stC9 : MapState := ⟨["a.a$b".data], [], [], []⟩

/-- C9 counterexample: the observed class name a.a$b is mangled by
`fixGenericNestedTypeName` into the unknown name a$b, so `classNameOnly`
throws for a name that was observed during scanning, contradicting the claim
that every observed name returns without throwing. -/
theorem classNameOnly_throws_on_observed_name :
    memN "a.a$b".data stC9.allClasses = true ∧
    classNameOnly stC9 "a.a$b".data = .error "a.a$b".data :=
  ⟨by decide, rfl⟩

/-- C9 (amended): the unknown-name defense acts on the *effective* class
name — the input with a generic suffix stripped and, for `classNameOnly`
only, the redundant-outer-name fix applied.  When the effective name is in
neither observed set the function throws an error identifying the offender
(`classNameOnly` names the original input, `isExcludedClass` the stripped
name); when the effective name was observed the function returns without
throwing (`classNameOnly` the effective name, `isExcludedClass` membership
in the excluded set). -/
theorem classNameOnly_isExcludedClass_unknown_defense :
    ∀ (st : MapState) (name : Name),
      (memN (fixGenericNestedTypeName (stripGeneric name)) st.allClasses = false →
        memN (fixGenericNestedTypeName (stripGeneric name)) st.allExcludedClasses = false →
        classNameOnly st name = .error name) ∧
      (memN (fixGenericNestedTypeName (stripGeneric name)) st.allClasses = true ∨
        memN (fixGenericNestedTypeName (stripGeneric name)) st.allExcludedClasses = true →
        classNameOnly st name = .ok (fixGenericNestedTypeName (stripGeneric name))) ∧
      (memN (stripGeneric name) st.allExcludedClasses = true →
        isExcludedClass st name = .ok true) ∧
      (memN (stripGeneric name) st.allExcludedClasses = false →
        memN (stripGeneric name) st.allClasses = true →
        isExcludedClass st name = .ok false) ∧
      (memN (stripGeneric name) st.allExcludedClasses = false →
        memN (stripGeneric name) st.allClasses = false →
        isExcludedClass st name = .error (stripGeneric name)) := by
  intro st name
  refine ⟨?_, ?_, ?_, ?_, ?_⟩
  · intro h1 h2
    rw [classNameOnly]
    simp [h1, h2]
  · intro h
    rw [classNameOnly]
    rcases h with h | h <;> simp [h]
  · intro h
    rw [isExcludedClass]
    simp [h]
  · intro h1 h2
    rw [isExcludedClass]
    simp [h1, h2]
  · intro h1 h2
    rw [isExcludedClass]
    simp [h1, h2]

/-- Witness instantiating the unknown-name defense on a concrete state:
an observed plain name returns, an observed generic name returns its base,
an excluded name reports exclusion, and an unknown name throws. -/
theorem classNameOnly_isExcludedClass_unknown_defense_witness :
    classNameOnly ⟨["java.lang.Object".data], ["x.Y".data], [], []⟩
      "java.lang.Object".data = .ok "java.lang.Object".data ∧
    isExcludedClass ⟨["java.lang.Object".data], ["x.Y".data], [], []⟩
      "x.Y".data = .ok true ∧
    isExcludedClass ⟨["java.lang.Object".data], ["x.Y".data], [], []⟩
      "unknown.Name".data = .error "unknown.Name".data :=
  ⟨(classNameOnly_isExcludedClass_unknown_defense
      ⟨["java.lang.Object".data], ["x.Y".data], [], []⟩
      "java.lang.Object".data).2.1 (Or.inl (by decide)),
   (classNameOnly_isExcludedClass_unknown_defense
      ⟨["java.lang.Object".data], ["x.Y".data], [], []⟩
      "x.Y".data).2.2.1 (by decide),
   (classNameOnly_isExcludedClass_unknown_defense
      ⟨["java.lang.Object".data], ["x.Y".data], [], []⟩
      "unknown.Name".data).2.2.2.2 (by decide) (by decide)⟩

/-!
### tsTypeName (lines 241-422) — claim C3

The pipeline `jniDecodeType → boxIfJavaPrimitive →
mapUnhandledTypesToJavaLangObject → mapJavaPrimitivesToTypescript →
alias/any → array suffix`.  The `encodedTypes` flag only guards
`stackTrace()` calls (a debugging abort) that cannot fire at any call site:
the JNI-encoded call sites pass `encodedTypes = true`, and the single
default-`false` call site (line 706) passes a plain class name, which the
decoder leaves untouched; the embedding therefore omits the flag.  Thrown
errors (`classNameOnly` inside `isIncludedClass`, and the
`assert.ok(this.isIncludedClass(typeName))` of `getJavaAliasName`, modelled
as an error) propagate as `.error`.
-/

/-- The `while` loop of `jniDecodeType` (lines 253-257): strip leading `[`
markers, appending one `[]` to `ext` for each. -/
def jniDecodeLoop : Name → Name → Name × Name
  | '[' :: rest, ext => jniDecodeLoop rest (ext ++ ['[', ']'])
  | t, ext => (t, ext)

/-- The match `^L(.*);$` of `jniDecodeType` (lines 259-263): unwrap an
object-type wrapper. -/
def unwrapL (t : Name) : Name :=
  match t with
  | 'L' :: rest => if rest.getLast? = some ';' then rest.dropLast else 'L' :: rest
  | _ => t

/-- The `jniAbbreviations` table (lines 266-276). -/
def jniAbbreviations : List (Name × Name) :=
  [("B".data, "byte".data), ("C".data, "char".data), ("D".data, "double".data),
   ("F".data, "float".data), ("I".data, "int".data), ("J".data, "long".data),
   ("S".data, "short".data), ("Z".data, "boolean".data)]

/-- `jniDecodeType` (lines 249-283): returns the decoded type name and the
accumulated `[]` array suffix. -/
def jniDecodeType (javaTypeName : Name) : Name × Name :=
  let d := jniDecodeLoop javaTypeName []
  let t2 := unwrapL d.1
  ((lookupD jniAbbreviations t2).getD t2, d.2)

example : jniDecodeType "[[I".data = ("int".data, "[][]".data) := by decide
example : jniDecodeType "Ljava.lang.String;".data = ("java.lang.String".data, []) := by
  decide

/-- The `primitiveToObjectMap` table of `boxIfJavaPrimitive` (lines 287-296). -/
def primitiveToObjectMap : List (Name × Name) :=
  [("byte".data, "java.lang.Object".data),
   ("char".data, "java.lang.Object".data),
   ("boolean".data, "java.lang.Boolean".data),
   ("short".data, "java.lang.Short".data),
   ("long".data, "java.lang.Long".data),
   ("int".data, "java.lang.Integer".data),
   ("float".data, "java.lang.Float".data),
   ("double".data, "java.lang.Double".data)]

/-- `boxIfJavaPrimitive` (lines 286-301). -/
def boxIfJavaPrimitive (typeName : Name) : Name :=
  (lookupD primitiveToObjectMap typeName).getD typeName

/-- `Immutable.Set.add` on the `unhandledTypes` diagnostic set. -/
def addUnhandled (st : MapState) (t : Name) : MapState :=
  { st with unhandledTypes :=
      if t ∈ st.unhandledTypes then st.unhandledTypes else st.unhandledTypes ++ [t] }

theorem mem_addUnhandled (st : MapState) (t : Name) :
    t ∈ (addUnhandled st t).unhandledTypes := by
  rw [addUnhandled]
  by_cases h : t ∈ st.unhandledTypes <;> simp [h]

/-- `isIncludedClass` (lines 174-176): membership of the classname-only form
in `allClasses`; propagates the unknown-name error of `classNameOnly`. -/
def isIncludedClassE (st : MapState) (className : Name) : Except Name Bool :=
  match classNameOnly st className with
  | .error e => .error e
  | .ok cn => .ok (memN cn st.allClasses)

/-- `mapUnhandledTypesToJavaLangObject` (lines 305-314): a non-void type not
in scope is recorded as unhandled and replaced by java.lang.Object. -/
def mapUnhandledTypesToJavaLangObject (st : MapState) (typeName : Name) :
    Except Name (Name × MapState) :=
  if typeName = "void".data then .ok (typeName, st)
  else
    match isIncludedClassE st typeName with
    | .error e => .error e
    | .ok true => .ok (typeName, st)
    | .ok false => .ok ("java.lang.Object".data, addUnhandled st typeName)

/-- `className.split('.')`. -/
def splitDot (l : Name) : List Name :=
  l.foldr
    (fun c acc =>
      if c = '.' then [] :: acc
      else
        match acc with
        | [] => [[c]]
        | g :: t => (c :: g) :: t)
    [[]]

/-- `shortClassName` (lines 741-743): the last dot-separated segment. -/
def shortClassName (className : Name) : Name := ((splitDot className).getLast?).getD []

example : shortClassName "java.util.List".data = "List".data := by decide

/-- `getJavaAliasName` (lines 364-374): use the short name when the
short-name map resolves it to this very class, and prepend `Java.`; the
`assert.ok(this.isIncludedClass(typeName))` is modelled as an error. -/
def getJavaAliasName (st : MapState) (className : Name) : Except Name Name :=
  match isIncludedClassE st className with
  | .error e => .error e
  | .ok false => .error className
  | .ok true =>
    let shortName := shortClassName className
    let typeName :=
      if lookupD st.shortToLongNameMap shortName = some (some className) then shortName
      else className
    .ok ("Java.".data ++ typeName)

/-- The element-type translation of `tsTypeName` (lines 383-396), i.e.
everything before the array-suffix handling. -/
def tsTypeNameElement (st : MapState) (typeName0 : Name) (context : ParamContext) :
    Except Name (Name × MapState) :=
  let typeName1 := boxIfJavaPrimitive typeName0
  match mapUnhandledTypesToJavaLangObject st typeName1 with
  | .error e => .error e
  | .ok (typeName2, st1) =>
    let mappedType := mapJavaPrimitivesToTypescript typeName2 context
    if mappedType ≠ typeName2 ∨ typeName2 = "void".data then .ok (mappedType, st1)
    else
      match isIncludedClassE st1 typeName2 with
      | .error e => .error e
      | .ok true =>
        match getJavaAliasName st1 typeName2 with
        | .error e => .error e
        | .ok a => .ok (a, st1)
      | .ok false => .ok ("any".data, addUnhandled st1 typeName2)

/-- `tsTypeName` (lines 380-422): element translation, then the array-suffix
handling of lines 398-419. -/
def tsTypeName (st : MapState) (javaTypeName : Name) (context : ParamContext) :
    Except Name (Name × MapState) :=
  let ext := (jniDecodeType javaTypeName).2
  match tsTypeNameElement st (jniDecodeType javaTypeName).1 context with
  | .error e => .error e
  | .ok (typeName, st2) =>
    if ext = [] then .ok (typeName, st2)
    else if context = ParamContext.eReturn then .ok (typeName ++ ext, st2)
    else if ext = "[]".data then .ok ("array_t<".data ++ typeName ++ ">".data, st2)
    else .ok ("void".data, addUnhandled st2 (typeName ++ ext))

/-- The concrete scan state of the C3 counterexample: java.util.List is the
only in-scope class and its short name is unambiguous. -/
def stC3 : MapState :=
  ⟨["java.util.List".data], [], [("List".data, some "java.util.List".data)], []⟩

/-- C3 counterexample: in input-parameter context a *one*-dimensional array
of the non-primitive element type java.util.List translates to the opaque
wrapper array_t (and records nothing unhandled), not to the
deliberately-failing type void as the claim's non-primitive-element clause
asserts. -/
theorem tsTypeName_one_dim_nonprimitive_input_is_array_t :
    tsTypeName stC3 "[Ljava.util.List;".data .eInput =
      .ok ("array_t<Java.List>".data, stC3) ∧
    "array_t<Java.List>".data ≠ "void".data ∧
    stC3.unhandledTypes = [] :=
  ⟨rfl, by decide, rfl⟩

/-- C3 (amended): with zero array dimensions the element translation passes
through the array stage unchanged; in return context any number of
dimensions is rendered as that many bracket pairs appended to the element
type; in input context exactly one dimension yields the opaque wrapper
array_t of the element type (whatever the element type is); and in input
context more than one dimension yields the deliberately-failing type void,
recording the suffixed type string in the unhandled-types set. -/
theorem tsTypeName_array_handling :
    ∀ (st : MapState) (javaTypeName : Name) (context : ParamContext)
      (e : Name) (st2 : MapState),
      tsTypeNameElement st (jniDecodeType javaTypeName).1 context = .ok (e, st2) →
      ((jniDecodeType javaTypeName).2 = [] →
        tsTypeName st javaTypeName context = .ok (e, st2)) ∧
      (context = .eReturn →
        tsTypeName st javaTypeName context =
          .ok (e ++ (jniDecodeType javaTypeName).2, st2)) ∧
      (context = .eInput → (jniDecodeType javaTypeName).2 = "[]".data →
        tsTypeName st javaTypeName context =
          .ok ("array_t<".data ++ e ++ ">".data, st2)) ∧
      (context = .eInput → (jniDecodeType javaTypeName).2 ≠ [] →
        (jniDecodeType javaTypeName).2 ≠ "[]".data →
        tsTypeName st javaTypeName context =
          .ok ("void".data, addUnhandled st2 (e ++ (jniDecodeType javaTypeName).2)) ∧
        (e ++ (jniDecodeType javaTypeName).2) ∈
          (addUnhandled st2 (e ++ (jniDecodeType javaTypeName).2)).unhandledTypes) := by
  intro st javaTypeName context e st2 h
  refine ⟨?_, ?_, ?_, ?_⟩
  · intro hext
    rw [tsTypeName, h, hext]
    simp
  · intro hc
    subst hc
    by_cases hext : (jniDecodeType javaTypeName).2 = []
    · rw [tsTypeName, h, hext]
      simp
    · rw [tsTypeName, h]
      simp [hext]
  · intro hc hext
    subst hc
    rw [tsTypeName, h, hext]
    simp
  · intro hc hne hone
    subst hc
    rw [tsTypeName, h]
    refine ⟨by simp [hne, hone], mem_addUnhandled _ _⟩

/-- Witness instantiating the array handling at the JNI-encoded type [[I in
input context: a two-dimensional int array is forced to void and recorded. -/
theorem tsTypeName_array_handling_witness :
    tsTypeName ⟨["java.lang.Integer".data], [], [], []⟩ "[[I".data .eInput =
      .ok ("void".data,
        addUnhandled ⟨["java.lang.Integer".data], [], [], []⟩
          ("integer_t".data ++ "[][]".data)) ∧
    ("integer_t".data ++ "[][]".data) ∈
      (addUnhandled ⟨["java.lang.Integer".data], [], [], []⟩
        ("integer_t".data ++ "[][]".data)).unhandledTypes := by
  have h := (tsTypeName_array_handling ⟨["java.lang.Integer".data], [], [], []⟩
    "[[I".data .eInput "integer_t".data ⟨["java.lang.Integer".data], [], [], []⟩
    rfl).2.2.2 rfl (by decide) (by decide)
  exact h

/-!
### compareVariants (lines 976-1010) — claims C4 and C5

`MethodDefinition` keeps the fields consulted by the verified operations
(`compareVariants`, `groupMethods`, `mergeOverloadedVariants`); the remaining
fields of the source interface (return types, parameter names, modifiers,
prototypes) are carried data never inspected by them.  JavaScript
`String.localeCompare` is modelled as code-point lexicographic comparison
(`compareStrings`), the standard collation for the ASCII signature and
prototype strings involved.
-/

structure MethodDefinition : Type where
  name : Name
  paramTypes : List Name
  tsParamTypes : List Name
  signature : Name
  generic_proto : Name
deriving DecidableEq

/-- Code-point lexicographic string comparison returning -1/0/1: the model
of `String.localeCompare`. -/
def compareStrings : Name → Name → Int
  | [], [] => 0
  | [], _ :: _ => -1
  | _ :: _, [] => 1
  | a :: as, b :: bs => if a < b then -1 else if b < a then 1 else compareStrings as bs

/-- The nested `countArgsOfTypeAny` of `compareVariants` (lines 977-979). -/
def countArgsOfTypeAny (a : MethodDefinition) : Nat :=
  (a.tsParamTypes.filter (fun t => t = "any".data)).length

/-- `compareVariants` (lines 976-1010): most-specific variant first. -/
def compareVariants (a b : MethodDefinition) : Int :=
  if a.paramTypes.length > b.paramTypes.length then -1
  else if a.paramTypes.length < b.paramTypes.length then 1
  else if countArgsOfTypeAny a < countArgsOfTypeAny b then -1
  else if countArgsOfTypeAny a > countArgsOfTypeAny b then 1
  else if a.signature.length > b.signature.length then -1
  else if a.signature.length < b.signature.length then 1
  else
    let result := compareStrings b.signature a.signature
    if result ≠ 0 then result else compareStrings a.generic_proto b.generic_proto

theorem cs_self : ∀ a : Name, compareStrings a a = 0
  | [] => rfl
  | c :: t => by simp [compareStrings, lt_irrefl, cs_self t]

theorem cs_eq_zero : ∀ a b : Name, compareStrings a b = 0 ↔ a = b
  | [], [] => by simp [compareStrings]
  | [], _ :: _ => by simp [compareStrings]
  | _ :: _, [] => by simp [compareStrings]
  | a :: as, b :: bs => by
    simp only [compareStrings]
    by_cases h1 : a < b
    · simp only [if_pos h1]
      constructor
      · intro h; exact absurd h (by decide)
      · intro h
        injection h with hh _
        exact absurd h1 (by rw [hh]; exact lt_irrefl b)
    · by_cases h2 : b < a
      · simp only [if_neg h1, if_pos h2]
        constructor
        · intro h; exact absurd h (by decide)
        · intro h
          injection h with hh _
          exact absurd h2 (by rw [hh]; exact lt_irrefl b)
      · have hab : a = b := le_antisymm (le_of_not_lt h2) (le_of_not_lt h1)
        subst hab
        simp [h1, cs_eq_zero as bs]

theorem cs_anti : ∀ a b : Name, compareStrings b a = -compareStrings a b
  | [], [] => rfl
  | [], _ :: _ => by simp [compareStrings]
  | _ :: _, [] => by simp [compareStrings]
  | a :: as, b :: bs => by
    simp only [compareStrings]
    by_cases h1 : a < b
    · simp [h1, asymm h1]
    · by_cases h2 : b < a
      · simp [h1, h2, asymm h2]
      · simp [h1, h2, cs_anti as bs]

theorem cs_vals : ∀ a b : Name,
    compareStrings a b = -1 ∨ compareStrings a b = 0 ∨ compareStrings a b = 1
  | [], [] => by simp [compareStrings]
  | [], _ :: _ => by simp [compareStrings]
  | _ :: _, [] => by simp [compareStrings]
  | a :: as, b :: bs => by
    simp only [compareStrings]
    by_cases h1 : a < b
    · simp [h1]
    · by_cases h2 : b < a
      · simp [h1, h2]
      · simp [h1, h2, cs_vals as bs]

theorem cs_lt_trans : ∀ a b c : Name,
    compareStrings a b = -1 → compareStrings b c = -1 → compareStrings a c = -1
  | [], [], c => by simp [compareStrings]
  | [], _ :: _, [] => by simp [compareStrings]
  | [], _ :: _, _ :: _ => by simp [compareStrings]
  | _ :: _, [], _ => by simp [compareStrings]
  | _ :: _, _ :: _, [] => by simp [compareStrings]
  | a :: as, b :: bs, c :: cs => by
    simp only [compareStrings]
    by_cases h1 : a < b
    · by_cases h2 : b < c
      · simp [lt_trans h1 h2]
      · by_cases h3 : c < b
        · intro _ h
          exact absurd h (by simp [h2, h3])
        · have hbc : b = c := le_antisymm (le_of_not_lt h3) (le_of_not_lt h2)
          subst hbc
          simp [h1]
    · by_cases h1' : b < a
      · intro h
        exact absurd h (by simp [h1, h1'])
      · have hab : a = b := le_antisymm (le_of_not_lt h1') (le_of_not_lt h1)
        subst hab
        by_cases h2 : a < c
        · simp [h2]
        · by_cases h3 : c < a
          · intro _ h
            exact absurd h (by simp [h2, h3])
          · simp only [if_neg h1, if_neg h2, if_neg h3]
            exact cs_lt_trans as bs cs

/-- Integer three-way comparison on naturals. -/
def cmpNat (x y : Nat) : Int := if x < y then -1 else if y < x then 1 else 0

theorem cmpNat_eq_zero (x y : Nat) : cmpNat x y = 0 ↔ x = y := by
  rw [cmpNat]; split_ifs <;> simp <;> omega

theorem cmpNat_eq_neg_one (x y : Nat) : cmpNat x y = -1 ↔ x < y := by
  rw [cmpNat]; split_ifs <;> simp <;> omega

theorem cmpNat_anti (x y : Nat) : cmpNat y x = -cmpNat x y := by
  rw [cmpNat, cmpNat]; split_ifs <;> omega

theorem cmpNat_vals (x y : Nat) : cmpNat x y = -1 ∨ cmpNat x y = 0 ∨ cmpNat x y = 1 := by
  rw [cmpNat]; split_ifs <;> simp

/-- Lexicographic combination of two comparators: use the second only when
the first reports a tie. -/
def lexCmp {α : Type} (c1 c2 : α → α → Int) (a b : α) : Int :=
  if c1 a b ≠ 0 then c1 a b else c2 a b

/-- Descending numeric sort key (larger key first). -/
def descNat {α : Type} (k : α → Nat) (a b : α) : Int := cmpNat (k b) (k a)

/-- Ascending numeric sort key (smaller key first). -/
def ascNat {α : Type} (k : α → Nat) (a b : α) : Int := cmpNat (k a) (k b)

/-- Descending lexicographic string sort key. -/
def descStr {α : Type} (k : α → Name) (a b : α) : Int := compareStrings (k b) (k a)

/-- Ascending lexicographic string sort key. -/
def ascStr {α : Type} (k : α → Name) (a b : α) : Int := compareStrings (k a) (k b)

/-- The spec's ordered key list for ordering method variants: (a) more
parameters first; (b) fewer parameters of translated type any first; (c)
longer raw signature first; (d) signature, lexicographically descending; (e)
full generic prototype, lexicographically ascending. -/
def byKeysSpec : MethodDefinition → MethodDefinition → Int :=
  lexCmp (descNat fun a => a.paramTypes.length)
    (lexCmp (ascNat countArgsOfTypeAny)
      (lexCmp (descNat fun a => a.signature.length)
        (lexCmp (descStr fun a => a.signature)
          (ascStr fun a => a.generic_proto))))

theorem lexCmp_descNat_unfold {α : Type} (k : α → Nat) (c : α → α → Int) (a b : α) :
    lexCmp (descNat k) c a b =
      if k a > k b then -1 else if k a < k b then 1 else c a b := by
  rw [lexCmp, descNat, cmpNat]
  split_ifs <;> first | rfl | omega

theorem lexCmp_ascNat_unfold {α : Type} (k : α → Nat) (c : α → α → Int) (a b : α) :
    lexCmp (ascNat k) c a b =
      if k a < k b then -1 else if k a > k b then 1 else c a b := by
  rw [lexCmp, ascNat, cmpNat]
  split_ifs <;> first | rfl | omega

theorem compareVariants_eq_byKeys (a b : MethodDefinition) :
    compareVariants a b = byKeysSpec a b := by
  rw [byKeysSpec, lexCmp_descNat_unfold, lexCmp_ascNat_unfold, lexCmp_descNat_unfold]
  rfl

/-- C4: `compareVariants` orders two method variants exactly per the ordered
key list (a) more parameters first, (b) fewer any-typed parameters first,
(c) longer raw signature first, (d) signature descending, (e) generic
prototype ascending. -/
theorem compareVariants_ordered_key_list :
    ∀ a b : MethodDefinition, compareVariants a b = byKeysSpec a b :=
  compareVariants_eq_byKeys

/-- The properties making an integer-valued comparator a strict weak order:
`c a b = -1` is the strict order, `c a b = 0` the induced equivalence. -/
structure LawfulCmp {α : Type} (c : α → α → Int) : Prop where
  zero_self : ∀ a, c a a = 0
  anti : ∀ a b, c b a = -c a b
  lt_trans : ∀ a b d, c a b = -1 → c b d = -1 → c a d = -1
  zero_trans : ∀ a b d, c a b = 0 → c b d = 0 → c a d = 0
  lt_of_lt_of_zero : ∀ a b d, c a b = -1 → c b d = 0 → c a d = -1
  lt_of_zero_of_lt : ∀ a b d, c a b = 0 → c b d = -1 → c a d = -1
  vals : ∀ a b, c a b = -1 ∨ c a b = 0 ∨ c a b = 1

theorem lexCmp_eq_zero_iff {α : Type} (c1 c2 : α → α → Int) (a b : α) :
    lexCmp c1 c2 a b = 0 ↔ c1 a b = 0 ∧ c2 a b = 0 := by
  rw [lexCmp]
  by_cases h : c1 a b = 0 <;> simp [h]

theorem lexCmp_eq_neg_one_iff {α : Type} (c1 c2 : α → α → Int) (a b : α) :
    lexCmp c1 c2 a b = -1 ↔ c1 a b = -1 ∨ (c1 a b = 0 ∧ c2 a b = -1) := by
  rw [lexCmp]
  by_cases h : c1 a b = 0 <;> simp [h]

theorem lawful_lexCmp {α : Type} {c1 c2 : α → α → Int}
    (h1 : LawfulCmp c1) (h2 : LawfulCmp c2) : LawfulCmp (lexCmp c1 c2) := by
  refine ⟨?_, ?_, ?_, ?_, ?_, ?_, ?_⟩
  · intro a
    rw [lexCmp]
    simp [h1.zero_self a, h2.zero_self a]
  · intro a b
    rw [lexCmp, lexCmp]
    by_cases h : c1 a b = 0
    · have h' : c1 b a = 0 := by rw [h1.anti, h]; rfl
      simp [h, h', h2.anti a b]
    · have h' : c1 b a ≠ 0 := by rw [h1.anti]; simpa using h
      simp [h, h', h1.anti a b]
  · intro a b d hab hbd
    rw [lexCmp_eq_neg_one_iff] at hab hbd ⊢
    rcases hab with hab | ⟨hab0, hab2⟩ <;> rcases hbd with hbd | ⟨hbd0, hbd2⟩
    · exact Or.inl (h1.lt_trans _ _ _ hab hbd)
    · exact Or.inl (h1.lt_of_lt_of_zero _ _ _ hab hbd0)
    · exact Or.inl (h1.lt_of_zero_of_lt _ _ _ hab0 hbd)
    · exact Or.inr ⟨h1.zero_trans _ _ _ hab0 hbd0, h2.lt_trans _ _ _ hab2 hbd2⟩
  · intro a b d hab hbd
    rw [lexCmp_eq_zero_iff] at hab hbd ⊢
    exact ⟨h1.zero_trans _ _ _ hab.1 hbd.1, h2.zero_trans _ _ _ hab.2 hbd.2⟩
  · intro a b d hab hbd
    rw [lexCmp_eq_neg_one_iff] at hab ⊢
    rw [lexCmp_eq_zero_iff] at hbd
    rcases hab with hab | ⟨hab0, hab2⟩
    · exact Or.inl (h1.lt_of_lt_of_zero _ _ _ hab hbd.1)
    · exact Or.inr ⟨h1.zero_trans _ _ _ hab0 hbd.1, h2.lt_of_lt_of_zero _ _ _ hab2 hbd.2⟩
  · intro a b d hab hbd
    rw [lexCmp_eq_zero_iff] at hab
    rw [lexCmp_eq_neg_one_iff] at hbd ⊢
    rcases hbd with hbd | ⟨hbd0, hbd2⟩
    · exact Or.inl (h1.lt_of_zero_of_lt _ _ _ hab.1 hbd)
    · exact Or.inr ⟨h1.zero_trans _ _ _ hab.1 hbd0, h2.lt_of_zero_of_lt _ _ _ hab.2 hbd2⟩
  · intro a b
    rw [lexCmp]
    by_cases h : c1 a b = 0
    · simp only [h]
      simpa using h2.vals a b
    · rcases h1.vals a b with h' | h' | h'
      · simp [h, h']
      · exact absurd h' h
      · simp [h, h']

theorem lawful_descNat {α : Type} (k : α → Nat) : LawfulCmp (descNat k) := by
  refine ⟨?_, ?_, ?_, ?_, ?_, ?_, ?_⟩
  · intro a
    exact (cmpNat_eq_zero _ _).mpr rfl
  · intro a b
    exact cmpNat_anti _ _
  · intro a b d hab hbd
    rw [descNat, cmpNat_eq_neg_one] at hab hbd ⊢
    omega
  · intro a b d hab hbd
    rw [descNat, cmpNat_eq_zero] at hab hbd ⊢
    omega
  · intro a b d hab hbd
    rw [descNat, cmpNat_eq_neg_one] at hab ⊢
    rw [descNat, cmpNat_eq_zero] at hbd
    omega
  · intro a b d hab hbd
    rw [descNat, cmpNat_eq_zero] at hab
    rw [descNat, cmpNat_eq_neg_one] at hbd ⊢
    omega
  · intro a b
    exact cmpNat_vals _ _

theorem lawful_ascNat {α : Type} (k : α → Nat) : LawfulCmp (ascNat k) := by
  refine ⟨?_, ?_, ?_, ?_, ?_, ?_, ?_⟩
  · intro a
    exact (cmpNat_eq_zero _ _).mpr rfl
  · intro a b
    exact cmpNat_anti _ _
  · intro a b d hab hbd
    rw [ascNat, cmpNat_eq_neg_one] at hab hbd ⊢
    omega
  · intro a b d hab hbd
    rw [ascNat, cmpNat_eq_zero] at hab hbd ⊢
    omega
  · intro a b d hab hbd
    rw [ascNat, cmpNat_eq_neg_one] at hab ⊢
    rw [ascNat, cmpNat_eq_zero] at hbd
    omega
  · intro a b d hab hbd
    rw [ascNat, cmpNat_eq_zero] at hab
    rw [ascNat, cmpNat_eq_neg_one] at hbd ⊢
    omega
  · intro a b
    exact cmpNat_vals _ _

theorem lawful_descStr {α : Type} (k : α → Name) : LawfulCmp (descStr k) := by
  refine ⟨?_, ?_, ?_, ?_, ?_, ?_, ?_⟩
  · intro a
    exact cs_self _
  · intro a b
    exact cs_anti _ _
  · intro a b d hab hbd
    exact cs_lt_trans _ _ _ hbd hab
  · intro a b d hab hbd
    rw [descStr, cs_eq_zero] at hab hbd ⊢
    rw [hbd, hab]
  · intro a b d hab hbd
    rw [descStr, cs_eq_zero] at hbd
    rw [descStr, hbd]
    exact hab
  · intro a b d hab hbd
    rw [descStr, cs_eq_zero] at hab
    rw [descStr, ← hab]
    exact hbd
  · intro a b
    exact cs_vals _ _

theorem lawful_ascStr {α : Type} (k : α → Name) : LawfulCmp (ascStr k) := by
  refine ⟨?_, ?_, ?_, ?_, ?_, ?_, ?_⟩
  · intro a
    exact cs_self _
  · intro a b
    exact cs_anti _ _
  · intro a b d hab hbd
    exact cs_lt_trans _ _ _ hab hbd
  · intro a b d hab hbd
    rw [ascStr, cs_eq_zero] at hab hbd ⊢
    rw [hab, hbd]
  · intro a b d hab hbd
    rw [ascStr, cs_eq_zero] at hbd
    rw [ascStr, ← hbd]
    exact hab
  · intro a b d hab hbd
    rw [ascStr, cs_eq_zero] at hab
    rw [ascStr, hab]
    exact hbd
  · intro a b
    exact cs_vals _ _

theorem lawful_ext {α : Type} {c c' : α → α → Int}
    (h : ∀ a b, c a b = c' a b) (hc : LawfulCmp c') : LawfulCmp c := by
  refine ⟨?_, ?_, ?_, ?_, ?_, ?_, ?_⟩
  · intro a; rw [h]; exact hc.zero_self a
  · intro a b; rw [h, h]; exact hc.anti a b
  · intro a b d hab hbd
    rw [h] at hab hbd ⊢
    exact hc.lt_trans _ _ _ hab hbd
  · intro a b d hab hbd
    rw [h] at hab hbd ⊢
    exact hc.zero_trans _ _ _ hab hbd
  · intro a b d hab hbd
    rw [h] at hab hbd ⊢
    exact hc.lt_of_lt_of_zero _ _ _ hab hbd
  · intro a b d hab hbd
    rw [h] at hab hbd ⊢
    exact hc.lt_of_zero_of_lt _ _ _ hab hbd
  · intro a b; rw [h]; exact hc.vals a b

theorem compareVariants_lawful : LawfulCmp compareVariants :=
  lawful_ext compareVariants_eq_byKeys
    (lawful_lexCmp (lawful_descNat _)
      (lawful_lexCmp (lawful_ascNat _)
        (lawful_lexCmp (lawful_descNat _)
          (lawful_lexCmp (lawful_descStr _) (lawful_ascStr _)))))

/-- C5: `compareVariants` is a strict weak ordering: it reports equivalence
on equal arguments (irreflexivity of the strict part), it is antisymmetric,
its strict part is transitive, its induced incomparability is transitive
(hence an equivalence relation), equivalence implies equal signature, and
variants agreeing on all compared fields (as equal-signature variants of one
class do) are equivalent — making it suitable for a stable sort. -/
theorem compareVariants_strict_weak_order :
    (∀ a : MethodDefinition, compareVariants a a = 0) ∧
    (∀ a b : MethodDefinition, compareVariants b a = -compareVariants a b) ∧
    (∀ a b d : MethodDefinition, compareVariants a b < 0 → compareVariants b d < 0 →
      compareVariants a d < 0) ∧
    (∀ a b d : MethodDefinition, compareVariants a b = 0 → compareVariants b d = 0 →
      compareVariants a d = 0) ∧
    (∀ a b : MethodDefinition, compareVariants a b = 0 → a.signature = b.signature) ∧
    (∀ a b : MethodDefinition, a.paramTypes = b.paramTypes →
      a.tsParamTypes = b.tsParamTypes → a.signature = b.signature →
      a.generic_proto = b.generic_proto → compareVariants a b = 0) := by
  refine ⟨compareVariants_lawful.zero_self, compareVariants_lawful.anti, ?_, ?_, ?_, ?_⟩
  · intro a b d hab hbd
    have hab' : compareVariants a b = -1 := by
      rcases compareVariants_lawful.vals a b with h | h | h <;> omega
    have hbd' : compareVariants b d = -1 := by
      rcases compareVariants_lawful.vals b d with h | h | h <;> omega
    have := compareVariants_lawful.lt_trans a b d hab' hbd'
    omega
  · exact compareVariants_lawful.zero_trans
  · intro a b h
    rw [compareVariants_eq_byKeys, byKeysSpec] at h
    rw [lexCmp_eq_zero_iff] at h
    rw [lexCmp_eq_zero_iff] at h
    replace h := h.2.2
    rw [lexCmp_eq_zero_iff] at h
    replace h := h.2
    rw [lexCmp_eq_zero_iff] at h
    replace h := h.1
    rw [descStr, cs_eq_zero] at h
    exact h.symm
  · intro a b h1 h2 h3 h4
    simp [compareVariants, countArgsOfTypeAny, h1, h2, h3, h4, cs_self]

/-- Witness chaining the strict part of `compareVariants` through a middle
variant: a one-parameter variant precedes a zero-parameter one, which
precedes its generic-prototype successor. -/
theorem compareVariants_strict_weak_order_witness :
    compareVariants ⟨"m".data, ["int".data], ["number".data], "m(I)V".data, "p1".data⟩
      ⟨"m".data, [], [], "m()V".data, "p3".data⟩ < 0 :=
  compareVariants_strict_weak_order.2.2.1
    ⟨"m".data, ["int".data], ["number".data], "m(I)V".data, "p1".data⟩
    ⟨"m".data, [], [], "m()V".data, "p2".data⟩
    ⟨"m".data, [], [], "m()V".data, "p3".data⟩
    (by decide) (by decide)

/-!
### interfaceDepth (lines 1052-1070) — claim C6

The class table maps a class name to its `ClassDefinition`; the embedding
keeps the two fields the verified operations consult: `interfaces` (the
resolved direct parents, superclass first) and `variantsDict`.
`interfaceDepth` recurses through `this.classes[intf].interfaces`, memoizing
into `this.interfaceDepthCache` (`Immutable.Map.set` is modelled by
prepending, shadowing any older entry).  The source recursion has no
termination measure (it diverges on a cyclic table), so the embedding takes
a fuel parameter; a missing table entry (a TypeError in the source) and fuel
exhaustion are `none`.  `depthPure` is the specification recurrence —
depth 0 for a class with no parents, otherwise 1 + the maximum parent
depth — against which the memoized function is verified.
-/

structure ClassEntry : Type where
  interfaces : List Name
  variantsDict : List (Name × List (Name × MethodDefinition))
deriving DecidableEq

abbrev ClassTable : Type := List (Name × ClassEntry)

abbrev DepthCache : Type := List (Name × Nat)

/-- `_.max(depths)` on a nonempty list of naturals. -/
def maxList (l : List Nat) : Nat := l.foldl Nat.max 0

/-- The `_.map(parents, parent => this.interfaceDepth(parent))` loop of
line 1064, threading the memo cache left to right; `none` propagates a
missing-entry failure. -/
def depthFold (step : DepthCache → Name → Option (Nat × DepthCache)) :
    DepthCache → List Name → Option (List Nat × DepthCache)
  | cache, [] => some ([], cache)
  | cache, p :: ps =>
    (step cache p).bind fun dc =>
      (depthFold step dc.2 ps).map fun dsc => (dc.1 :: dsc.1, dsc.2)

/-- `interfaceDepth` (lines 1055-1070) with fuel: answer from the memo cache
when present; otherwise 0 for a parentless class, else one more than the
maximum of the parents' depths; cache the result. -/
def interfaceDepthF (classes : ClassTable) :
    Nat → DepthCache → Name → Option (Nat × DepthCache)
  | 0 => fun _ _ => none
  | f + 1 => fun cache intf =>
    match lookupD cache intf with
    | some d => some (d, cache)
    | none =>
      (lookupD classes intf).bind fun entry =>
        (depthFold (interfaceDepthF classes f) cache entry.interfaces).map fun dsc =>
          (if entry.interfaces.isEmpty then 0 else maxList dsc.1 + 1,
           (intf, if entry.interfaces.isEmpty then 0 else maxList dsc.1 + 1) :: dsc.2)

def pureFold (step : Name → Option Nat) : List Name → Option (List Nat)
  | [] => some []
  | p :: ps => (step p).bind fun d => (pureFold step ps).map fun ds => d :: ds

/-- The specification recurrence of the claim, with fuel: depth 0 for a
class whose entry lists no parents, otherwise 1 + the maximum depth of the
parents. -/
def depthPure (classes : ClassTable) : Nat → Name → Option Nat
  | 0 => fun _ => none
  | f + 1 => fun intf =>
    (lookupD classes intf).bind fun entry =>
      (pureFold (depthPure classes f) entry.interfaces).map fun ds =>
        if entry.interfaces.isEmpty then 0 else maxList ds + 1

theorem interfaceDepthF_succ_hit (classes : ClassTable) (f : Nat) (cache : DepthCache)
    (intf : Name) (d : Nat) (h : lookupD cache intf = some d) :
    interfaceDepthF classes (f + 1) cache intf = some (d, cache) := by
  simp only [interfaceDepthF, h]

theorem interfaceDepthF_succ_miss (classes : ClassTable) (f : Nat) (cache : DepthCache)
    (intf : Name) (h : lookupD cache intf = none) :
    interfaceDepthF classes (f + 1) cache intf =
      (lookupD classes intf).bind fun entry =>
        (depthFold (interfaceDepthF classes f) cache entry.interfaces).map fun dsc =>
          (if entry.interfaces.isEmpty then 0 else maxList dsc.1 + 1,
           (intf, if entry.interfaces.isEmpty then 0 else maxList dsc.1 + 1) :: dsc.2) := by
  simp only [interfaceDepthF, h]

theorem pureFold_congr (A B : Name → Option Nat)
    (h : ∀ p d, A p = some d → B p = some d) :
    ∀ l ds, pureFold A l = some ds → pureFold B l = some ds := by
  intro l
  induction l with
  | nil => intro ds hds; exact hds
  | cons p ps ih =>
    intro ds hds
    simp only [pureFold] at hds ⊢
    cases hA : A p with
    | none => rw [hA, Option.none_bind] at hds; exact Option.noConfusion hds
    | some d =>
      rw [hA, Option.some_bind] at hds
      cases hF : pureFold A ps with
      | none => rw [hF, Option.map_none'] at hds; exact Option.noConfusion hds
      | some ds1 =>
        rw [hF, Option.map_some'] at hds
        rw [h p d hA, Option.some_bind, ih ds1 hF, Option.map_some']
        exact hds

theorem depthPure_mono (classes : ClassTable) :
    ∀ f g, f ≤ g → ∀ n d, depthPure classes f n = some d → depthPure classes g n = some d := by
  intro f
  induction f with
  | zero =>
    intro g _ n d h
    exact absurd h (by simp [depthPure])
  | succ f ih =>
    intro g hfg n d h
    cases g with
    | zero => omega
    | succ g' =>
      simp only [depthPure] at h ⊢
      cases ht : lookupD classes n with
      | none =>
        rw [ht, Option.none_bind] at h
        exact Option.noConfusion h
      | some entry =>
        rw [ht, Option.some_bind] at h
        rw [Option.some_bind]
        cases hF : pureFold (depthPure classes f) entry.interfaces with
        | none =>
          rw [hF, Option.map_none'] at h
          exact Option.noConfusion h
        | some ds =>
          rw [hF, Option.map_some'] at h
          rw [pureFold_congr (depthPure classes f) (depthPure classes g')
            (fun p dd hp => ih g' (by omega) p dd hp) entry.interfaces ds hF,
            Option.map_some']
          exact h

theorem depthPure_det (classes : ClassTable) (f g : Nat) (n : Name) (d d' : Nat)
    (h1 : depthPure classes f n = some d) (h2 : depthPure classes g n = some d') :
    d = d' := by
  rcases Nat.le_total f g with hle | hle
  · have h3 := depthPure_mono classes f g hle n d h1
    rw [h3] at h2
    injection h2
  · have h3 := depthPure_mono classes g f hle n d' h2
    rw [h3] at h1
    injection h1 with h
    exact h.symm

theorem pureFold_forall₂ (step : Name → Option Nat) :
    ∀ l ds, pureFold step l = some ds →
      List.Forall₂ (fun p dd => step p = some dd) l ds := by
  intro l
  induction l with
  | nil =>
    intro ds h
    injection h with h
    subst h
    exact List.Forall₂.nil
  | cons p ps ih =>
    intro ds h
    simp only [pureFold] at h
    cases hA : step p with
    | none => rw [hA, Option.none_bind] at h; exact Option.noConfusion h
    | some d =>
      rw [hA, Option.some_bind] at h
      cases hF : pureFold step ps with
      | none => rw [hF, Option.map_none'] at h; exact Option.noConfusion h
      | some ds1 =>
        rw [hF, Option.map_some'] at h
        injection h with h
        subst h
        exact List.Forall₂.cons hA (ih ds1 hF)

theorem forall₂_exists_pureFold (classes : ClassTable) :
    ∀ l ds, List.Forall₂ (fun p dd => ∃ g, depthPure classes g p = some dd) l ds →
      ∃ G, pureFold (depthPure classes G) l = some ds := by
  intro l ds h
  induction h with
  | nil => exact ⟨0, rfl⟩
  | cons h1 h2 ih =>
    obtain ⟨g1, hg1⟩ := h1
    obtain ⟨G, hG⟩ := ih
    refine ⟨max g1 G, ?_⟩
    simp only [pureFold]
    rw [depthPure_mono classes g1 (max g1 G) (le_max_left _ _) _ _ hg1, Option.some_bind,
      pureFold_congr (depthPure classes G) (depthPure classes (max g1 G))
        (fun p dd hp => depthPure_mono classes G (max g1 G) (le_max_right _ _) p dd hp)
        _ _ hG,
      Option.map_some']

/-- Consistency of the memo cache: every cached depth is the depth computed
by the specification recurrence. -/
def CacheOK (classes : ClassTable) (cache : DepthCache) : Prop :=
  ∀ n d, lookupD cache n = some d → ∃ g, depthPure classes g n = some d

theorem cacheOK_nil (classes : ClassTable) : CacheOK classes [] :=
  fun _ _ h => Option.noConfusion h

theorem depthFold_sound (classes : ClassTable)
    (step : DepthCache → Name → Option (Nat × DepthCache))
    (hstep : ∀ cache n d c', CacheOK classes cache → step cache n = some (d, c') →
      CacheOK classes c' ∧ (∃ g, depthPure classes g n = some d) ∧
      lookupD c' n = some d ∧
      (∀ m, (lookupD cache m).isSome = true → (lookupD c' m).isSome = true)) :
    ∀ l cache ds c2, CacheOK classes cache →
      depthFold step cache l = some (ds, c2) →
      CacheOK classes c2 ∧
      List.Forall₂ (fun p dd => ∃ g, depthPure classes g p = some dd) l ds ∧
      (∀ m, (lookupD cache m).isSome = true → (lookupD c2 m).isSome = true) := by
  intro l
  induction l with
  | nil =>
    intro cache ds c2 hok h
    injection h with h
    injection h with h1 h2
    subst h1
    subst h2
    exact ⟨hok, List.Forall₂.nil, fun m hm => hm⟩
  | cons p ps ih =>
    intro cache ds c2 hok h
    simp only [depthFold] at h
    cases hs : step cache p with
    | none => rw [hs, Option.none_bind] at h; exact Option.noConfusion h
    | some dc =>
      obtain ⟨d, c⟩ := dc
      rw [hs, Option.some_bind] at h
      cases hf : depthFold step c ps with
      | none => rw [hf, Option.map_none'] at h; exact Option.noConfusion h
      | some dsc =>
        obtain ⟨ds1, c3⟩ := dsc
        rw [hf, Option.map_some'] at h
        injection h with h
        injection h with h1 h2
        subst h1
        subst h2
        obtain ⟨hokc, hpure, _, hdom1⟩ := hstep cache p d c hok hs
        obtain ⟨hok2, hfa, hdom2⟩ := ih c ds1 c3 hokc hf
        exact ⟨hok2, List.Forall₂.cons hpure hfa, fun m hm => hdom2 m (hdom1 m hm)⟩

theorem interfaceDepthF_sound (classes : ClassTable) :
    ∀ f cache n d c', CacheOK classes cache →
      interfaceDepthF classes f cache n = some (d, c') →
      CacheOK classes c' ∧ (∃ g, depthPure classes g n = some d) ∧
      lookupD c' n = some d ∧
      (∀ m, (lookupD cache m).isSome = true → (lookupD c' m).isSome = true) := by
  intro f
  induction f with
  | zero => intro cache n d c' _ h; exact Option.noConfusion h
  | succ f ih =>
    intro cache n d c' hok h
    cases hc : lookupD cache n with
    | some d0 =>
      rw [interfaceDepthF_succ_hit classes f cache n d0 hc] at h
      injection h with h
      injection h with h1 h2
      subst h1
      subst h2
      exact ⟨hok, hok n _ hc, hc, fun m hm => hm⟩
    | none =>
      rw [interfaceDepthF_succ_miss classes f cache n hc] at h
      cases ht : lookupD classes n with
      | none => rw [ht, Option.none_bind] at h; exact Option.noConfusion h
      | some entry =>
        rw [ht, Option.some_bind] at h
        cases hf : depthFold (interfaceDepthF classes f) cache entry.interfaces with
        | none => rw [hf, Option.map_none'] at h; exact Option.noConfusion h
        | some dsc =>
          obtain ⟨ds, c⟩ := dsc
          rw [hf, Option.map_some'] at h
          injection h with h
          injection h with h1 h2
          obtain ⟨hokc, hfa, hdom⟩ := depthFold_sound classes (interfaceDepthF classes f)
            (fun cc nn dd cc' hh1 hh2 => ih cc nn dd cc' hh1 hh2)
            entry.interfaces cache ds c hok hf
          obtain ⟨G, hG⟩ := forall₂_exists_pureFold classes entry.interfaces ds hfa
          have hpure : depthPure classes (G + 1) n =
              some (if entry.interfaces.isEmpty then 0 else maxList ds + 1) := by
            simp only [depthPure]
            rw [ht, Option.some_bind, hG, Option.map_some']
          subst h1
          subst h2
          refine ⟨?_, ⟨G + 1, hpure⟩, by simp [lookupD], ?_⟩
          · intro m dm hm
            by_cases hnm : n = m
            · subst hnm
              simp [lookupD] at hm
              subst hm
              refine ⟨G + 1, ?_⟩
              simpa using hpure
            · simp only [lookupD, if_neg hnm] at hm
              exact hokc m dm hm
          · intro m hm
            by_cases hnm : n = m
            · subst hnm; simp [lookupD]
            · simp only [lookupD, if_neg hnm]
              exact hdom m hm

theorem interfaceDepthF_complete (classes : ClassTable) :
    ∀ f cache n d, CacheOK classes cache → depthPure classes f n = some d →
      ∃ c', interfaceDepthF classes f cache n = some (d, c') := by
  intro f
  induction f with
  | zero => intro cache n d _ h; exact Option.noConfusion h
  | succ f ih =>
    have fold_complete : ∀ l cache2 ds2, CacheOK classes cache2 →
        pureFold (depthPure classes f) l = some ds2 →
        ∃ c2, depthFold (interfaceDepthF classes f) cache2 l = some (ds2, c2) ∧
          CacheOK classes c2 := by
      intro l
      induction l with
      | nil =>
        intro cache2 ds2 hok2 hp
        injection hp with hp
        subst hp
        exact ⟨cache2, rfl, hok2⟩
      | cons p ps ihl =>
        intro cache2 ds2 hok2 hp
        simp only [pureFold] at hp
        cases hA : depthPure classes f p with
        | none => rw [hA, Option.none_bind] at hp; exact Option.noConfusion hp
        | some d1 =>
          rw [hA, Option.some_bind] at hp
          cases hB : pureFold (depthPure classes f) ps with
          | none => rw [hB, Option.map_none'] at hp; exact Option.noConfusion hp
          | some ds1 =>
            rw [hB, Option.map_some'] at hp
            injection hp with hp
            subst hp
            obtain ⟨c1, hstep⟩ := ih cache2 p d1 hok2 hA
            have hokc1 : CacheOK classes c1 :=
              (interfaceDepthF_sound classes f cache2 p d1 c1 hok2 hstep).1
            obtain ⟨c2, hfold, hok2'⟩ := ihl c1 ds1 hokc1 hB
            refine ⟨c2, ?_, hok2'⟩
            simp only [depthFold]
            rw [hstep, Option.some_bind, hfold, Option.map_some']
    intro cache n d hok hp
    simp only [depthPure] at hp
    cases ht : lookupD classes n with
    | none => rw [ht, Option.none_bind] at hp; exact Option.noConfusion hp
    | some entry =>
      rw [ht, Option.some_bind] at hp
      cases hF : pureFold (depthPure classes f) entry.interfaces with
      | none => rw [hF, Option.map_none'] at hp; exact Option.noConfusion hp
      | some ds =>
        rw [hF, Option.map_some'] at hp
        injection hp with hp
        cases hc : lookupD cache n with
        | some d0 =>
          obtain ⟨g, hg⟩ := hok n d0 hc
          have hp' : depthPure classes (f + 1) n = some d := by
            simp only [depthPure]
            rw [ht, Option.some_bind, hF, Option.map_some', hp]
          have hd : d0 = d := depthPure_det classes g (f + 1) n d0 d hg hp'
          subst hd
          exact ⟨cache, interfaceDepthF_succ_hit classes f cache n d0 hc⟩
        | none =>
          obtain ⟨c2, hfold, _⟩ := fold_complete entry.interfaces cache ds hok hF
          refine ⟨(n, d) :: c2, ?_⟩
          rw [interfaceDepthF_succ_miss classes f cache n hc, ht, Option.some_bind,
            hfold, Option.map_some', hp]

/-- C6: whenever the memoized `interfaceDepthF` answers from a consistent
cache, the returned depth satisfies the recurrence — a class whose entry
lists no resolved parents (the root object type) has depth 0, and a class
with parents P1..Pn has depth 1 + the maximum of the parents' depths, where
each parent's depth is the value any query for that parent returns — and the
result is memoized: querying the same name again with the returned cache
yields the same depth and leaves the cache unchanged. -/
theorem interfaceDepth_recurrence :
    ∀ (classes : ClassTable) (f : Nat) (cache : DepthCache) (C : Name) (d : Nat)
      (c' : DepthCache) (entry : ClassEntry),
      CacheOK classes cache →
      interfaceDepthF classes f cache C = some (d, c') →
      lookupD classes C = some entry →
      (entry.interfaces = [] → d = 0) ∧
      (entry.interfaces ≠ [] →
        ∃ ds, d = maxList ds + 1 ∧
          List.Forall₂
            (fun p dd => ∀ f2 c2 d2 c3, CacheOK classes c2 →
              interfaceDepthF classes f2 c2 p = some (d2, c3) → d2 = dd)
            entry.interfaces ds) ∧
      (∀ f2, interfaceDepthF classes (f2 + 1) c' C = some (d, c')) := by
  intro classes f cache C d c' entry hok h hte
  obtain ⟨hok', ⟨g, hg⟩, hlook, _⟩ := interfaceDepthF_sound classes f cache C d c' hok h
  refine ⟨?_, ?_, ?_⟩
  · intro hni
    cases g with
    | zero => exact Option.noConfusion hg
    | succ g' =>
      simp only [depthPure] at hg
      rw [hte, Option.some_bind, hni] at hg
      simp only [pureFold, Option.map_some', List.isEmpty_nil, if_true] at hg
      injection hg with hg
      exact hg.symm
  · intro hne
    cases g with
    | zero => exact Option.noConfusion hg
    | succ g' =>
      simp only [depthPure] at hg
      rw [hte, Option.some_bind] at hg
      cases hF : pureFold (depthPure classes g') entry.interfaces with
      | none => rw [hF, Option.map_none'] at hg; exact Option.noConfusion hg
      | some ds =>
        rw [hF, Option.map_some'] at hg
        injection hg with hg
        have hemp : entry.interfaces.isEmpty = false := by
          cases hI : entry.interfaces with
          | nil => exact absurd hI hne
          | cons a l => rfl
        refine ⟨ds, ?_, ?_⟩
        · rw [← hg]
          simp [hemp]
        · have hfa := pureFold_forall₂ (depthPure classes g') entry.interfaces ds hF
          refine List.Forall₂.imp ?_ hfa
          intro p dd hdd f2 c2 d2 c3 hok2 hcall
          obtain ⟨_, ⟨g2, hg2⟩, _, _⟩ :=
            interfaceDepthF_sound classes f2 c2 p d2 c3 hok2 hcall
          exact depthPure_det classes g2 g' p d2 dd hg2 hdd
  · intro f2
    exact interfaceDepthF_succ_hit classes f2 c' C d hlook

/-- The two-class table of the C6 witness: the root object type and one
interface directly extending it. -/
def tblC6 : ClassTable :=
  [("java.lang.Object".data, ⟨[], []⟩),
   ("I".data, ⟨["java.lang.Object".data], []⟩)]

/-- Witness instantiating the interface-depth recurrence on `tblC6`: the
memoized-stability clause replays the query for I against the cache produced
by computing its depth (1 = 1 + depth of the root object type). -/
theorem interfaceDepth_recurrence_witness :
    interfaceDepthF tblC6 1 [("I".data, 1), ("java.lang.Object".data, 0)] "I".data =
      some (1, [("I".data, 1), ("java.lang.Object".data, 0)]) := by
  have h := interfaceDepth_recurrence tblC6 3 [] "I".data 1
    [("I".data, 1), ("java.lang.Object".data, 0)] ⟨["java.lang.Object".data], []⟩
    (cacheOK_nil tblC6) (by rfl) (by rfl)
  exact h.2.2 0

/-!
### interfacesTransitiveClosure and mergeOverloadedVariants
    (lines 1043-1050 and 1076-1096) — claims C1 and C8

The `Work` class (`./work`) is not part of the sources; its model below
follows spec §4.1.  `this.classes[intf]` on a name missing from the class
table throws in the source; the model skips such names (the theorems are
exercised on closed tables, where the two agree).  The
`.sort((i1, i2) => depth(i2) - depth(i1))` call is modelled as a stable
insertion sort, descending by `interfaceDepthVal`, the cache-free value of
`interfaceDepth` (consistent with the memoized function by
`interfaceDepthF_sound`).  `_.assign(target, source)` copies every key of
`source` into `target`, overwriting values of existing keys in place and
appending new keys, per JS object semantics (`setKey`).
-/

/-- Modelled from the spec: `Work.addTodo` (spec §4.1) — enqueue a name
unless it is already pending or done.  The state is (queue, done). -/
def addTodoW (st : List Name × List Name) (n : Name) : List Name × List Name :=
  if n ∈ st.1 ∨ n ∈ st.2 then st else (st.1 ++ [n], st.2)

/-- Modelled from the spec: `Work.forEach` (spec §4.1) — drain the queue,
marking each name done as it is dequeued; the visitor of
`interfacesTransitiveClosure` (line 1046-1048) enqueues the parents listed
by the dequeued name's class-table entry.  Fuel bounds the drain; the
closure below supplies fuel exceeding every possible number of enqueues. -/
def workLoop (classes : ClassTable) : Nat → List Name → List Name → List Name
  | 0, _, done => done
  | _ + 1, [], done => done
  | f + 1, n :: rest, done =>
    let parents :=
      match lookupD classes n with
      | some e => e.interfaces
      | none => []
    let st := parents.foldl addTodoW (rest, done ++ [n])
    workLoop classes f st.1 st.2

/-- `interfacesTransitiveClosure` (lines 1043-1050): seed the worklist with
the direct interfaces and drain it, collecting the done set. -/
def interfacesTransitiveClosure (classes : ClassTable) (directInterfaces : List Name) :
    List Name :=
  let st0 := directInterfaces.foldl addTodoW ([], [])
  workLoop classes
    (directInterfaces.length + (classes.map fun e => e.2.interfaces.length).sum + 1)
    st0.1 st0.2

/-- The interface depth consulted by the sort comparator (line 1081): the
cache-free specification value.  Fuel `classes.length + 1` suffices for
every table on which the source recursion terminates (depth chains cannot
exceed the table size); elsewhere the source diverges and the model
defaults to 0. -/
def interfaceDepthVal (classes : ClassTable) (n : Name) : Nat :=
  (depthPure classes (classes.length + 1) n).getD 0

/-- Stable descending insertion: a later element is placed after existing
elements of equal key. -/
def insertDesc (key : Name → Nat) (x : Name) : List Name → List Name
  | [] => [x]
  | y :: t => if key y < key x then x :: y :: t else y :: insertDesc key x t

/-- The `.sort((intf1, intf2) => depth(intf2) - depth(intf1))` of lines
1079-1082: stable sort, descending interface depth. -/
def sortByDepthDesc (classes : ClassTable) (l : List Name) : List Name :=
  l.foldl (fun acc n => insertDesc (interfaceDepthVal classes) n acc) []

/-- The inherited-interface list that `mergeOverloadedVariants` walks:
transitive closure, sorted by descending depth. -/
def sortedInheritedInterfaces (classes : ClassTable) (directInterfaces : List Name) :
    List Name :=
  sortByDepthDesc classes (interfacesTransitiveClosure classes directInterfaces)

abbrev VariantsBySignature : Type := List (Name × MethodDefinition)

abbrev MethodsByNameBySignature : Type := List (Name × VariantsBySignature)

/-- `_.assign(target, source)`: copy each property of `source` into
`target` in key order, overwriting in place. -/
def assign (target source : VariantsBySignature) : VariantsBySignature :=
  source.foldl (fun acc kv => setKey acc kv.1 kv.2) target

/-- The inner loop of `mergeOverloadedVariants` (lines 1087-1094) for one
method name: for each inherited interface in order, if it declares the
name, `_.assign` all of its variants into the accumulating dictionary. -/
def mergeName (classes : ClassTable) (interfaces : List Name) (methodName : Name)
    (methodVariants : VariantsBySignature) : VariantsBySignature :=
  interfaces.foldl
    (fun acc intfName =>
      match lookupD classes intfName with
      | none => acc
      | some e =>
        match lookupD e.variantsDict methodName with
        | none => acc
        | some intfVariants => assign acc intfVariants)
    methodVariants

/-- `mergeOverloadedVariants` (lines 1076-1096): for each method name of the
class, merge in the variants declared by the inherited interfaces, walked in
descending depth order. -/
def mergeOverloadedVariants (classes : ClassTable)
    (variantsDict : MethodsByNameBySignature) (directInterfaces : List Name) :
    MethodsByNameBySignature :=
  let interfaces := sortedInheritedInterfaces classes directInterfaces
  variantsDict.map fun p => (p.1, mergeName classes interfaces p.1 p.2)

/-- Two-level lookup in a variants dictionary: method name, then signature. -/
def lookup2 (vd : MethodsByNameBySignature) (m s : Name) : Option MethodDefinition :=
  match lookupD vd m with
  | none => none
  | some mv => lookupD mv s

/-- The variant for signature `s` of method `m` declared by the *last*
interface in walk order that declares `m` with `s` — the variant that
survives the overwriting `_.assign` chain. -/
def findLastDeclared (classes : ClassTable) (m s : Name) :
    List Name → Option MethodDefinition
  | [] => none
  | intfName :: t =>
    match findLastDeclared classes m s t with
    | some v => some v
    | none =>
      match lookupD classes intfName with
      | none => none
      | some e =>
        match lookupD e.variantsDict m with
        | none => none
        | some intfVariants => lookupD intfVariants s

/-- Every interface's per-method variants dictionary has distinct signature
keys — automatic for dictionaries built from JS objects. -/
def NodupInner (classes : ClassTable) : Prop :=
  ∀ p ∈ classes, ∀ q ∈ p.2.variantsDict, (q.2.map Prod.fst).Nodup

/-- The class's own variant of the C1 counterexample. -/
def mdOwn : MethodDefinition := ⟨"foo".data, [], [], "foo()V".data, "own".data⟩

/-- The inherited interface's variant of the same signature. -/
def mdIntf : MethodDefinition := ⟨"foo".data, [], [], "foo()V".data, "intf".data⟩

/-- A table with one interface I declaring foo()V. -/
def tblC1 : ClassTable :=
  [("I".data, ⟨[], [("foo".data, [("foo()V".data, mdIntf)])]⟩)]

/-- A class's variants dictionary already recording its own foo()V. -/
def vdC1 : MethodsByNameBySignature := [("foo".data, [("foo()V".data, mdOwn)])]

/-- C1 counterexample: merging the inherited interface I overwrites the
variant already recorded for the existing signature foo()V with I's
declaration — the claim's "without overwriting the variant already recorded
for an existing signature" is false (the source comment at lines 1072-1075
states the overwriting is intentional). -/
theorem mergeOverloadedVariants_overwrites_existing :
    lookup2 (mergeOverloadedVariants tblC1 vdC1 ["I".data]) "foo".data "foo()V".data =
      some mdIntf ∧ mdIntf ≠ mdOwn :=
  ⟨rfl, by decide⟩

theorem lookupD_assign (src : VariantsBySignature)
    (hsrc : (src.map Prod.fst).Nodup) :
    ∀ (t : VariantsBySignature) (k : Name),
      lookupD (assign t src) k =
        match lookupD src k with
        | some v => some v
        | none => lookupD t k := by
  induction src with
  | nil =>
    intro t k
    simp [assign, lookupD]
  | cons p rest ih =>
    intro t k
    obtain ⟨k0, v0⟩ := p
    simp only [List.map_cons, List.nodup_cons] at hsrc
    have hstep : assign t ((k0, v0) :: rest) = assign (setKey t k0 v0) rest := by
      simp [assign]
    rw [hstep, ih hsrc.2 (setKey t k0 v0) k]
    cases hk : lookupD rest k with
    | some v =>
      have hmem : k ∈ rest.map Prod.fst := by
        have := lookupD_mem rest k v hk
        exact List.mem_map.mpr ⟨(k, v), this, rfl⟩
      have hne : k0 ≠ k := by
        intro he
        subst he
        exact hsrc.1 hmem
      simp [lookupD, hne, hk]
    | none =>
      rw [lookupD_setKey]
      by_cases he : k0 = k
      · subst he
        simp [lookupD]
      · simp [lookupD, he, hk]

theorem nodupInner_lookup (classes : ClassTable) (hN : NodupInner classes)
    (i : Name) (e : ClassEntry) (hi : lookupD classes i = some e)
    (m : Name) (iv : VariantsBySignature) (hm : lookupD e.variantsDict m = some iv) :
    (iv.map Prod.fst).Nodup :=
  hN (i, e) (lookupD_mem _ _ _ hi) (m, iv) (lookupD_mem _ _ _ hm)

theorem lookupD_mergeName (classes : ClassTable) (hN : NodupInner classes) :
    ∀ (interfaces : List Name) (m : Name) (mv : VariantsBySignature) (s : Name),
      lookupD (mergeName classes interfaces m mv) s =
        match findLastDeclared classes m s interfaces with
        | some v => some v
        | none => lookupD mv s := by
  intro l
  induction l with
  | nil => intro m mv s; rfl
  | cons i t ih =>
    intro m mv s
    have hstep : mergeName classes (i :: t) m mv =
        mergeName classes t m
          (match lookupD classes i with
           | none => mv
           | some e =>
             match lookupD e.variantsDict m with
             | none => mv
             | some intfVariants => assign mv intfVariants) := by
      cases hi : lookupD classes i with
      | none => simp [mergeName, List.foldl_cons, hi]
      | some e =>
        cases hm : lookupD e.variantsDict m with
        | none => simp [mergeName, List.foldl_cons, hi, hm]
        | some iv => simp [mergeName, List.foldl_cons, hi, hm]
    rw [hstep]
    cases hi : lookupD classes i with
    | none =>
      rw [ih]
      simp only [findLastDeclared, hi]
      try rfl
      try (cases hft : findLastDeclared classes m s t <;> rfl)
    | some e =>
      cases hm : lookupD e.variantsDict m with
      | none =>
        rw [ih]
        simp only [findLastDeclared, hi, hm]
        try rfl
        try (cases hft : findLastDeclared classes m s t <;> rfl)
      | some iv =>
        rw [ih]
        simp only [findLastDeclared, hi, hm]
        cases hft : findLastDeclared classes m s t with
        | some v => rfl
        | none =>
          rw [lookupD_assign iv (nodupInner_lookup classes hN i e hi m iv hm) mv s]

theorem lookupD_mapVal {α β : Type} (f : Name → α → β) :
    ∀ (l : List (Name × α)) (k : Name),
      lookupD (l.map fun p => (p.1, f p.1 p.2)) k = (lookupD l k).map (f k) := by
  intro l
  induction l with
  | nil => intro k; rfl
  | cons p t ih =>
    intro k
    obtain ⟨k0, v0⟩ := p
    by_cases h : k0 = k
    · subst h
      simp [lookupD]
    · simp [lookupD, h, ih]

theorem mem_insertDesc (key : Name → Nat) (x a : Name) :
    ∀ l, a ∈ insertDesc key x l ↔ a = x ∨ a ∈ l := by
  intro l
  induction l with
  | nil => simp [insertDesc]
  | cons y t ih =>
    simp only [insertDesc]
    by_cases h : key y < key x
    · simp [h]
    · simp only [if_neg h, List.mem_cons, ih]
      tauto

theorem insertDesc_sorted (key : Name → Nat) (x : Name) :
    ∀ l, l.Pairwise (fun a b => key b ≤ key a) →
      (insertDesc key x l).Pairwise (fun a b => key b ≤ key a) := by
  intro l
  induction l with
  | nil => intro _; simp [insertDesc]
  | cons y t ih =>
    intro hs
    rw [List.pairwise_cons] at hs
    simp only [insertDesc]
    by_cases h : key y < key x
    · rw [if_pos h, List.pairwise_cons]
      constructor
      · intro b hb
        rcases List.mem_cons.mp hb with hb | hb
        · subst hb; omega
        · have := hs.1 b hb
          omega
      · exact List.pairwise_cons.mpr hs
    · rw [if_neg h, List.pairwise_cons]
      constructor
      · intro b hb
        rcases (mem_insertDesc key x b t).mp hb with hb | hb
        · subst hb; omega
        · exact hs.1 b hb
      · exact ih hs.2

theorem sortByDepthDesc_sorted (classes : ClassTable) (l : List Name) :
    (sortByDepthDesc classes l).Pairwise
      (fun a b => interfaceDepthVal classes b ≤ interfaceDepthVal classes a) := by
  suffices h : ∀ acc, acc.Pairwise
      (fun a b => interfaceDepthVal classes b ≤ interfaceDepthVal classes a) →
      (l.foldl (fun acc n => insertDesc (interfaceDepthVal classes) n acc) acc).Pairwise
        (fun a b => interfaceDepthVal classes b ≤ interfaceDepthVal classes a) by
    exact h [] List.Pairwise.nil
  induction l with
  | nil => intro acc hacc; exact hacc
  | cons n t ih =>
    intro acc hacc
    exact ih _ (insertDesc_sorted _ n acc hacc)

/-- C1 (amended): `mergeOverloadedVariants` walks the transitive closure of
the inherited interfaces in descending interface-depth order and, for each
method name already present on the class, copies in every declaring
interface's variants by signature *with overwrite*; consequently the variant
recorded for a signature is the one from the last-walked (shallowest)
declaring interface — the interface that first declared it — falling back to
the class's own variant only when no inherited interface declares that
signature; names absent from the class's dictionary are not added. -/
theorem mergeOverloadedVariants_last_declaration_wins :
    ∀ (classes : ClassTable) (variantsDict : MethodsByNameBySignature)
      (directInterfaces : List Name) (m s : Name),
      NodupInner classes →
      (lookup2 (mergeOverloadedVariants classes variantsDict directInterfaces) m s =
        match lookupD variantsDict m with
        | none => none
        | some mv =>
          match findLastDeclared classes m s
              (sortedInheritedInterfaces classes directInterfaces) with
          | some v => some v
          | none => lookupD mv s) ∧
      (sortedInheritedInterfaces classes directInterfaces).Pairwise
        (fun a b => interfaceDepthVal classes b ≤ interfaceDepthVal classes a) := by
  intro classes vd direct m s hN
  constructor
  · rw [lookup2, mergeOverloadedVariants]
    rw [lookupD_mapVal (fun m mv => mergeName classes
      (sortedInheritedInterfaces classes direct) m mv) vd m]
    cases hm : lookupD vd m with
    | none => rfl
    | some mv =>
      simp only [Option.map_some']
      exact lookupD_mergeName classes hN (sortedInheritedInterfaces classes direct) m mv s
  · exact sortByDepthDesc_sorted classes _

/-- Witness instantiating the merge characterization on the C1 table: the
inherited declaration of foo()V is the one recorded. -/
theorem mergeOverloadedVariants_last_declaration_wins_witness :
    lookup2 (mergeOverloadedVariants tblC1 vdC1 ["I".data]) "foo".data "foo()V".data =
      some mdIntf := by
  have h := (mergeOverloadedVariants_last_declaration_wins tblC1 vdC1 ["I".data]
    "foo".data "foo()V".data (by unfold NodupInner; decide)).1
  rw [h]
  rfl

/-- The key list of a JS-object association list, in property order. -/
def keysOf {α : Type} (l : List (Name × α)) : List Name := l.map Prod.fst

/-- Key-set effect of one property write: an existing key keeps its
position, a new key is appended. -/
def gstep (ks : List Name) (k : Name) : List Name := if k ∈ ks then ks else ks ++ [k]

theorem keysOf_setKey {α : Type} (k : Name) (v : α) :
    ∀ t : List (Name × α), keysOf (setKey t k v) = gstep (keysOf t) k := by
  intro t
  induction t with
  | nil =>
    show [k] = if k ∈ ([] : List Name) then [] else [] ++ [k]
    rw [if_neg (List.not_mem_nil k)]
    rfl
  | cons p t ih =>
    obtain ⟨k0, v0⟩ := p
    by_cases h : k0 = k
    · subst h
      have hset : setKey ((k0, v0) :: t) k0 v = (k0, v) :: t := by
        have h0 : setKey ((k0, v0) :: t) k0 v =
            if k0 = k0 then (k0, v) :: t else (k0, v0) :: setKey t k0 v := rfl
        rw [h0, if_pos rfl]
      rw [hset]
      have hmem : k0 ∈ keysOf ((k0, v0) :: t) := by
        rw [keysOf, List.map_cons]
        exact List.mem_cons_self _ _
      rw [gstep, if_pos hmem]
      rfl
    · simp only [setKey, if_neg h, keysOf, List.map_cons] at ih ⊢
      rw [ih]
      simp only [gstep, List.mem_cons]
      by_cases hm : k ∈ t.map Prod.fst
      · simp [hm, Ne.symm h]
      · simp [hm, Ne.symm h]

theorem keysOf_assign :
    ∀ (src t : VariantsBySignature),
      keysOf (assign t src) = (keysOf src).foldl gstep (keysOf t) := by
  intro src
  induction src with
  | nil => intro t; rfl
  | cons p rest ih =>
    intro t
    obtain ⟨k0, v0⟩ := p
    have hstep : assign t ((k0, v0) :: rest) = assign (setKey t k0 v0) rest := by
      simp [assign]
    rw [hstep, ih (setKey t k0 v0), keysOf_setKey]
    rfl

/-- Key-set effect of the per-name merge loop. -/
def mergeKeys (classes : ClassTable) (m : Name) (l : List Name) (ks : List Name) :
    List Name :=
  l.foldl
    (fun ks2 i =>
      match lookupD classes i with
      | none => ks2
      | some e =>
        match lookupD e.variantsDict m with
        | none => ks2
        | some iv => (keysOf iv).foldl gstep ks2)
    ks

theorem keysOf_mergeName (classes : ClassTable) (m : Name) :
    ∀ (l : List Name) (mv : VariantsBySignature),
      keysOf (mergeName classes l m mv) = mergeKeys classes m l (keysOf mv) := by
  intro l
  induction l with
  | nil => intro mv; rfl
  | cons i t ih =>
    intro mv
    cases hi : lookupD classes i with
    | none =>
      have h1 : mergeName classes (i :: t) m mv = mergeName classes t m mv := by
        simp [mergeName, List.foldl_cons, hi]
      have h2 : mergeKeys classes m (i :: t) (keysOf mv) =
          mergeKeys classes m t (keysOf mv) := by
        simp [mergeKeys, List.foldl_cons, hi]
      rw [h1, h2, ih]
    | some e =>
      cases hm : lookupD e.variantsDict m with
      | none =>
        have h1 : mergeName classes (i :: t) m mv = mergeName classes t m mv := by
          simp [mergeName, List.foldl_cons, hi, hm]
        have h2 : mergeKeys classes m (i :: t) (keysOf mv) =
            mergeKeys classes m t (keysOf mv) := by
          simp [mergeKeys, List.foldl_cons, hi, hm]
        rw [h1, h2, ih]
      | some iv =>
        have h1 : mergeName classes (i :: t) m mv =
            mergeName classes t m (assign mv iv) := by
          simp [mergeName, List.foldl_cons, hi, hm]
        have h2 : mergeKeys classes m (i :: t) (keysOf mv) =
            mergeKeys classes m t ((keysOf iv).foldl gstep (keysOf mv)) := by
          simp [mergeKeys, List.foldl_cons, hi, hm]
        rw [h1, h2, ih, keysOf_assign]

theorem gstep_foldl_mem_pres (a : Name) :
    ∀ (l ks : List Name), a ∈ ks → a ∈ l.foldl gstep ks := by
  intro l
  induction l with
  | nil => intro ks h; exact h
  | cons k t ih =>
    intro ks h
    refine ih (gstep ks k) ?_
    rw [gstep]
    by_cases hk : k ∈ ks
    · simpa [hk] using h
    · simp [hk, List.mem_append, h]

theorem gstep_foldl_mem_new (a : Name) :
    ∀ (l ks : List Name), a ∈ l → a ∈ l.foldl gstep ks := by
  intro l
  induction l with
  | nil => intro ks h; exact absurd h (List.not_mem_nil a)
  | cons k t ih =>
    intro ks h
    rcases List.mem_cons.mp h with h | h
    · subst h
      refine gstep_foldl_mem_pres a t (gstep ks a) ?_
      rw [gstep]
      by_cases hk : a ∈ ks
      · simp [hk]
      · simp [hk]
    · exact ih (gstep ks k) h

theorem gstep_foldl_all_mem :
    ∀ (l ks : List Name), (∀ a ∈ l, a ∈ ks) → l.foldl gstep ks = ks := by
  intro l
  induction l with
  | nil => intro ks _; rfl
  | cons k t ih =>
    intro ks h
    have hk : k ∈ ks := h k (List.mem_cons_self k t)
    rw [List.foldl_cons, gstep, if_pos hk]
    exact ih ks (fun a ha => h a (List.mem_cons_of_mem k ha))

theorem gstep_foldl_nodup :
    ∀ (l ks : List Name), ks.Nodup → (l.foldl gstep ks).Nodup := by
  intro l
  induction l with
  | nil => intro ks h; exact h
  | cons k t ih =>
    intro ks h
    refine ih (gstep ks k) ?_
    rw [gstep]
    by_cases hk : k ∈ ks
    · simpa [hk] using h
    · simp only [if_neg hk]
      simp [List.nodup_append, h, hk]

theorem mergeKeys_mem_pres (classes : ClassTable) (m : Name) (a : Name) :
    ∀ (l : List Name) (ks : List Name), a ∈ ks → a ∈ mergeKeys classes m l ks := by
  intro l
  induction l with
  | nil => intro ks h; exact h
  | cons i t ih =>
    intro ks h
    cases hi : lookupD classes i with
    | none =>
      have h2 : mergeKeys classes m (i :: t) ks = mergeKeys classes m t ks := by
        simp [mergeKeys, List.foldl_cons, hi]
      rw [h2]; exact ih ks h
    | some e =>
      cases hm : lookupD e.variantsDict m with
      | none =>
        have h2 : mergeKeys classes m (i :: t) ks = mergeKeys classes m t ks := by
          simp [mergeKeys, List.foldl_cons, hi, hm]
        rw [h2]; exact ih ks h
      | some iv =>
        have h2 : mergeKeys classes m (i :: t) ks =
            mergeKeys classes m t ((keysOf iv).foldl gstep ks) := by
          simp [mergeKeys, List.foldl_cons, hi, hm]
        rw [h2]
        exact ih _ (gstep_foldl_mem_pres a (keysOf iv) ks h)

theorem mergeKeys_mem_inner (classes : ClassTable) (m : Name) :
    ∀ (l : List Name) (ks : List Name) (i : Name) (e : ClassEntry)
      (iv : VariantsBySignature),
      i ∈ l → lookupD classes i = some e → lookupD e.variantsDict m = some iv →
      ∀ a ∈ keysOf iv, a ∈ mergeKeys classes m l ks := by
  intro l
  induction l with
  | nil => intro ks i e iv hmem; exact absurd hmem (List.not_mem_nil i)
  | cons j t ih =>
    intro ks i e iv hmem hi hm a ha
    rcases List.mem_cons.mp hmem with hji | hit
    · subst hji
      have h2 : mergeKeys classes m (i :: t) ks =
          mergeKeys classes m t ((keysOf iv).foldl gstep ks) := by
        simp [mergeKeys, List.foldl_cons, hi, hm]
      rw [h2]
      exact mergeKeys_mem_pres classes m a t _ (gstep_foldl_mem_new a (keysOf iv) ks ha)
    · cases hj : lookupD classes j with
      | none =>
        have h2 : mergeKeys classes m (j :: t) ks = mergeKeys classes m t ks := by
          simp [mergeKeys, List.foldl_cons, hj]
        rw [h2]
        exact ih ks i e iv hit hi hm a ha
      | some e2 =>
        cases hm2 : lookupD e2.variantsDict m with
        | none =>
          have h2 : mergeKeys classes m (j :: t) ks = mergeKeys classes m t ks := by
            simp [mergeKeys, List.foldl_cons, hj, hm2]
          rw [h2]
          exact ih ks i e iv hit hi hm a ha
        | some iv2 =>
          have h2 : mergeKeys classes m (j :: t) ks =
              mergeKeys classes m t ((keysOf iv2).foldl gstep ks) := by
            simp [mergeKeys, List.foldl_cons, hj, hm2]
          rw [h2]
          exact ih _ i e iv hit hi hm a ha

theorem mergeKeys_fixed (classes : ClassTable) (m : Name) :
    ∀ (l : List Name) (K : List Name),
      (∀ i ∈ l, ∀ e iv, lookupD classes i = some e →
        lookupD e.variantsDict m = some iv → ∀ a ∈ keysOf iv, a ∈ K) →
      mergeKeys classes m l K = K := by
  intro l
  induction l with
  | nil => intro K _; rfl
  | cons i t ih =>
    intro K hK
    cases hi : lookupD classes i with
    | none =>
      have h2 : mergeKeys classes m (i :: t) K = mergeKeys classes m t K := by
        simp [mergeKeys, List.foldl_cons, hi]
      rw [h2]
      exact ih K (fun j hj => hK j (List.mem_cons_of_mem i hj))
    | some e =>
      cases hm : lookupD e.variantsDict m with
      | none =>
        have h2 : mergeKeys classes m (i :: t) K = mergeKeys classes m t K := by
          simp [mergeKeys, List.foldl_cons, hi, hm]
        rw [h2]
        exact ih K (fun j hj => hK j (List.mem_cons_of_mem i hj))
      | some iv =>
        have hall : ∀ a ∈ keysOf iv, a ∈ K :=
          fun a ha => hK i (List.mem_cons_self i t) e iv hi hm a ha
        have h2 : mergeKeys classes m (i :: t) K = mergeKeys classes m t K := by
          simp only [mergeKeys, List.foldl_cons, hi, hm]
          rw [gstep_foldl_all_mem (keysOf iv) K hall]
        rw [h2]
        exact ih K (fun j hj => hK j (List.mem_cons_of_mem i hj))

theorem mergeKeys_idem (classes : ClassTable) (m : Name) (l : List Name)
    (ks : List Name) :
    mergeKeys classes m l (mergeKeys classes m l ks) = mergeKeys classes m l ks :=
  mergeKeys_fixed classes m l (mergeKeys classes m l ks)
    (fun i hi e iv hie hm a ha =>
      mergeKeys_mem_inner classes m l ks i e iv hi hie hm a ha)

theorem mergeKeys_nodup (classes : ClassTable) (m : Name) :
    ∀ (l : List Name) (ks : List Name), ks.Nodup → (mergeKeys classes m l ks).Nodup := by
  intro l
  induction l with
  | nil => intro ks h; exact h
  | cons i t ih =>
    intro ks h
    cases hi : lookupD classes i with
    | none =>
      have h2 : mergeKeys classes m (i :: t) ks = mergeKeys classes m t ks := by
        simp [mergeKeys, List.foldl_cons, hi]
      rw [h2]; exact ih ks h
    | some e =>
      cases hm : lookupD e.variantsDict m with
      | none =>
        have h2 : mergeKeys classes m (i :: t) ks = mergeKeys classes m t ks := by
          simp [mergeKeys, List.foldl_cons, hi, hm]
        rw [h2]; exact ih ks h
      | some iv =>
        have h2 : mergeKeys classes m (i :: t) ks =
            mergeKeys classes m t ((keysOf iv).foldl gstep ks) := by
          simp [mergeKeys, List.foldl_cons, hi, hm]
        rw [h2]
        exact ih _ (gstep_foldl_nodup (keysOf iv) ks h)

theorem assoc_ext {α : Type} :
    ∀ (t1 t2 : List (Name × α)), (keysOf t1).Nodup → keysOf t1 = keysOf t2 →
      (∀ k, lookupD t1 k = lookupD t2 k) → t1 = t2 := by
  intro t1
  induction t1 with
  | nil =>
    intro t2 _ hkeys _
    cases t2 with
    | nil => rfl
    | cons p t => exact absurd hkeys.symm (by simp [keysOf])
  | cons p r1 ih =>
    intro t2 hnd hkeys hlook
    obtain ⟨k, v⟩ := p
    cases t2 with
    | nil => exact absurd hkeys (by simp [keysOf])
    | cons q r2 =>
      obtain ⟨k2, v2⟩ := q
      simp only [keysOf, List.map_cons, List.cons.injEq] at hkeys
      obtain ⟨hk, hkt⟩ := hkeys
      subst hk
      simp only [keysOf, List.map_cons, List.nodup_cons] at hnd
      have hv : v = v2 := by
        have := hlook k
        simp [lookupD] at this
        exact this
      subst hv
      have htail : r1 = r2 := by
        refine ih r2 hnd.2 hkt ?_
        intro k'
        by_cases hkk : k' = k
        · subst hkk
          rw [lookupD_eq_none_of_not_mem r1 k' hnd.1,
            lookupD_eq_none_of_not_mem r2 k' (hkt ▸ hnd.1)]
        · have h5 := hlook k'
          have hne : ¬k = k' := Ne.symm hkk
          simp only [lookupD, hne, if_false] at h5
          exact h5
      rw [htail]

theorem mergeName_idem (classes : ClassTable) (hN : NodupInner classes)
    (interfaces : List Name) (m : Name) (mv : VariantsBySignature)
    (hmv : (keysOf mv).Nodup) :
    mergeName classes interfaces m (mergeName classes interfaces m mv) =
      mergeName classes interfaces m mv := by
  refine assoc_ext _ _ ?_ ?_ ?_
  · rw [keysOf_mergeName]
    exact mergeKeys_nodup classes m interfaces _
      (keysOf_mergeName classes m interfaces mv ▸ mergeKeys_nodup classes m interfaces _ hmv)
  · rw [keysOf_mergeName, keysOf_mergeName]
    exact mergeKeys_idem classes m interfaces (keysOf mv)
  · intro s
    rw [lookupD_mergeName classes hN, lookupD_mergeName classes hN]
    cases hfl : findLastDeclared classes m s interfaces <;> rfl

/-- C8: `mergeOverloadedVariants` is idempotent — applying the merge twice
over a fixed class table yields exactly the same variants dictionary (same
names in the same order, same signatures, same variant per signature) as
applying it once, given the dictionaries have distinct keys as JS objects
do. -/
theorem mergeOverloadedVariants_idempotent :
    ∀ (classes : ClassTable) (variantsDict : MethodsByNameBySignature)
      (directInterfaces : List Name),
      NodupInner classes →
      (∀ p ∈ variantsDict, (keysOf p.2).Nodup) →
      mergeOverloadedVariants classes
          (mergeOverloadedVariants classes variantsDict directInterfaces)
          directInterfaces =
        mergeOverloadedVariants classes variantsDict directInterfaces := by
  intro classes vd direct hN hvd
  simp only [mergeOverloadedVariants, List.map_map]
  refine List.map_congr_left ?_
  intro p hp
  simp only [Function.comp_apply]
  rw [mergeName_idem classes hN (sortedInheritedInterfaces classes direct) p.1 p.2
    (hvd p hp)]

/-- Witness instantiating merge idempotence on the C1 table. -/
theorem mergeOverloadedVariants_idempotent_witness :
    mergeOverloadedVariants tblC1 (mergeOverloadedVariants tblC1 vdC1 ["I".data])
        ["I".data] =
      mergeOverloadedVariants tblC1 vdC1 ["I".data] :=
  mergeOverloadedVariants_idempotent tblC1 vdC1 ["I".data]
    (by unfold NodupInner; decide) (by unfold keysOf; decide)

end TsJava
